import Mathlib

/-!
# ShinDB storage engine: a shallow embedding

This file embeds the core of the ShinDB storage engine in Lean 4 and settles
a list of claims about it.  The embedded components are:

* the result envelope (`Status`, `Resp`) from `src/engine/src/types/operations.ts`;
* runtime JavaScript values (`Val`) as stored documents, query operands and
  log records;
* the per-shard document store `InMemoryDataStore`
  (`src/unnamed/part_010`, first class): association lists model JavaScript
  `Map`s, preserving insertion order (set-in-place on an existing key,
  append on a fresh key);
* the memory governor `MemoryManager`
  (`src/engine/src/services/memory-manager.ts`): `canAllocate`,
  `estimateDataSize`, the recency (LRU) index.  Process memory readings
  (`Deno.memoryUsage()`) are an environment input: a stream of snapshots
  consumed one per `getMemoryStats` call.  The float arithmetic of
  `canAllocate` is modelled with exact rationals;
* the sharded `MapManager` (`src/unnamed/part_015`): shard rotation,
  `get`/`set`/`update`/`delete`, the bulk operations including the chunked
  ingest path of `setMany`, `find` with the `Where` predicate grammar
  (`src/engine/src/types/collection-manager.ts`);
* the append-only log (`Archive`, `src/unnamed/part_008`): `addRecord`
  buffers and flushes strictly in FIFO order, so the log content is the
  sequence of records handed to `addRecord`; the model tracks that sequence;
* the wire dispatch `ProtocolV2.processMessage` (`src/unnamed/part_014`).

The shard capacity `MAX_ALLOCATED_ENTRIES` (6,000,000 in the source) is a
configuration parameter of the model, as the specification's own test
scenarios exercise the engine "with capacity lowered to 2".
-/

set_option linter.unusedVariables false

namespace ShinDB

/-! ## Result envelope (`operations.ts`) -/

inductive Status where
  | OK
  | ERROR
deriving DecidableEq, Repr

/-- `Response<T> = { status, data? }`. -/
structure Resp (α : Type) where
  status : Status
  data : Option α := none
deriving DecidableEq, Repr

/-! ## Runtime values

Documents, query operands and log records are runtime JavaScript values.
`vUndef` is the result of a missing property access.  JavaScript `===` on
arrays, byte arrays and objects is reference equality; a decoded query
operand is never reference-equal to a stored value, so `jsEq` returns
`false` whenever either side is non-primitive. -/

inductive Val where
  | vUndef
  | vNull
  | vBool (b : Bool)
  | vNum (n : Int)
  | vStr (s : String)
  | vArr (elems : List Val)
  | vBytes (bytes : List Nat)
  | vObj (fields : List (String × Val))

abbrev CollectionName := String
abbrev DocId := Nat

/-- JavaScript truthiness: `undefined`, `null`, `false`, `0` and `""` are
falsy; every array, byte array and object (even empty) is truthy. -/
def truthy : Val → Bool
  | .vUndef => false
  | .vNull => false
  | .vBool b => b
  | .vNum n => n != 0
  | .vStr s => s ≠ ""
  | .vArr _ => true
  | .vBytes _ => true
  | .vObj _ => true

/-- JavaScript strict equality `===` between a stored value and a decoded
operand: value equality on primitives, `false` on non-primitives
(reference equality of distinct objects). -/
def jsEq : Val → Val → Bool
  | .vUndef, .vUndef => true
  | .vNull, .vNull => true
  | .vBool a, .vBool b => a = b
  | .vNum a, .vNum b => a = b
  | .vStr a, .vStr b => a = b
  | _, _ => false

/-- JavaScript `<` restricted to the comparable cases the engine meets:
number/number and string/string; every mixed or non-primitive comparison
yields `false`. -/
def jsLt : Val → Val → Bool
  | .vNum a, .vNum b => a < b
  | .vStr a, .vStr b => a < b
  | _, _ => false

def jsGt (a b : Val) : Bool := jsLt b a

def jsLe : Val → Val → Bool
  | .vNum a, .vNum b => a ≤ b
  | .vStr a, .vStr b => a ≤ b
  | _, _ => false

def jsGe (a b : Val) : Bool := jsLe b a

/-- JavaScript `String(x)` on the primitive values the engine stringifies. -/
def jsToStringPrim : Val → String
  | .vUndef => "undefined"
  | .vNull => "null"
  | .vBool true => "true"
  | .vBool false => "false"
  | .vNum n => toString n
  | .vStr s => s
  | .vArr _ => ""
  | .vBytes _ => ""
  | .vObj _ => "[object Object]"

/-- `needle` occurs as a contiguous substring of `hay`
(JavaScript `String.prototype.includes`). -/
def strIncludes (hay needle : String) : Bool :=
  decide (needle.toList <:+: hay.toList)

/-! ## Association lists with JavaScript `Map` semantics

A JavaScript `Map` iterates in insertion order; `set` on an existing key
updates the value in place (keeping the key's position), `set` on a fresh
key appends, `delete` removes the entry. -/

def alistGet {α β : Type} [DecidableEq α] : List (α × β) → α → Option β
  | [], _ => none
  | (k', v) :: rest, k => if k' = k then some v else alistGet rest k

def alistSet {α β : Type} [DecidableEq α] : List (α × β) → α → β → List (α × β)
  | [], k, v => [(k, v)]
  | (k', v') :: rest, k, v =>
      if k' = k then (k', v) :: rest else (k', v') :: alistSet rest k v

def alistRemove {α β : Type} [DecidableEq α] : List (α × β) → α → List (α × β)
  | [], _ => []
  | (k', v') :: rest, k =>
      if k' = k then rest else (k', v') :: alistRemove rest k

def alistHas {α β : Type} [DecidableEq α] (m : List (α × β)) (k : α) : Bool :=
  (alistGet m k).isSome

@[simp] theorem alistGet_nil {α β : Type} [DecidableEq α] (k : α) :
    alistGet ([] : List (α × β)) k = none := rfl

@[simp] theorem alistGet_cons {α β : Type} [DecidableEq α] (k' k : α) (v : β)
    (rest : List (α × β)) :
    alistGet ((k', v) :: rest) k =
      if k' = k then some v else alistGet rest k := rfl

theorem alistGet_alistSet_self {α β : Type} [DecidableEq α]
    (m : List (α × β)) (k : α) (v : β) : alistGet (alistSet m k v) k = some v := by
  induction m with
  | nil => simp [alistSet]
  | cons hd tl ih =>
      obtain ⟨k', v'⟩ := hd
      by_cases h : k' = k <;> simp [alistSet, h, ih]

theorem alistGet_alistSet_ne {α β : Type} [DecidableEq α]
    (m : List (α × β)) (k k₀ : α) (v : β) (h : k ≠ k₀) :
    alistGet (alistSet m k v) k₀ = alistGet m k₀ := by
  induction m with
  | nil => simp [alistSet, h]
  | cons hd tl ih =>
      obtain ⟨k', v'⟩ := hd
      by_cases hk : k' = k
      · subst hk; simp [alistSet, h]
      · simp [alistSet, hk, ih]

theorem alistGet_alistRemove_ne {α β : Type} [DecidableEq α]
    (m : List (α × β)) (k k₀ : α) (h : k ≠ k₀) :
    alistGet (alistRemove m k) k₀ = alistGet m k₀ := by
  induction m with
  | nil => simp [alistRemove]
  | cons hd tl ih =>
      obtain ⟨k', v'⟩ := hd
      by_cases hk : k' = k
      · subst hk; simp [alistRemove, h]
      · simp [alistRemove, hk, ih]

theorem alistGet_eq_none_of_not_mem_keys {α β : Type} [DecidableEq α]
    (m : List (α × β)) (k : α) (h : k ∉ m.map Prod.fst) :
    alistGet m k = none := by
  induction m with
  | nil => rfl
  | cons hd tl ih =>
      obtain ⟨k', v'⟩ := hd
      simp only [List.map_cons, List.mem_cons, not_or] at h
      simp [Ne.symm h.1, ih h.2]

theorem alistGet_alistRemove_self_of_nodup {α β : Type} [DecidableEq α]
    (m : List (α × β)) (k : α) (hnd : (m.map Prod.fst).Nodup) :
    alistGet (alistRemove m k) k = none := by
  induction m with
  | nil => simp [alistRemove]
  | cons hd tl ih =>
      obtain ⟨k', v'⟩ := hd
      simp only [List.map_cons, List.nodup_cons] at hnd
      by_cases hk : k' = k
      · subst hk
        simp only [alistRemove, if_pos rfl]
        exact alistGet_eq_none_of_not_mem_keys tl k' hnd.1
      · simp only [alistRemove, if_neg hk]
        simp [hk, ih hnd.2]

theorem alistHas_alistRemove_imp {α β : Type} [DecidableEq α]
    (m : List (α × β)) (k k₀ : α) (h : alistHas (alistRemove m k) k₀ = true) :
    alistHas m k₀ = true := by
  induction m with
  | nil => simpa [alistRemove] using h
  | cons hd tl ih =>
      obtain ⟨k', v'⟩ := hd
      by_cases hk : k' = k
      · subst hk
        simp only [alistRemove, if_pos rfl] at h
        by_cases hk₀ : k' = k₀
        · simp [alistHas, hk₀]
        · simpa [alistHas, hk₀] using h
      · simp only [alistRemove, if_neg hk] at h
        by_cases hk₀ : k' = k₀
        · simp [alistHas, hk₀]
        · simp only [alistHas, alistGet_cons, if_neg hk₀] at h ⊢
          exact ih h

theorem mem_alistRemove_imp {α β : Type} [DecidableEq α]
    (m : List (α × β)) (k : α) (p : α × β) (hp : p ∈ alistRemove m k) : p ∈ m := by
  induction m with
  | nil => simpa [alistRemove] using hp
  | cons hd tl ih =>
      obtain ⟨k₂, v₂⟩ := hd
      by_cases hk₂ : k₂ = k
      · subst hk₂
        simp only [alistRemove, if_pos rfl] at hp
        exact List.mem_cons_of_mem _ hp
      · simp only [alistRemove, if_neg hk₂, List.mem_cons] at hp
        rcases hp with hp | hp
        · exact hp ▸ List.mem_cons_self _ _
        · exact List.mem_cons_of_mem _ (ih hp)

theorem nodup_keys_alistRemove {α β : Type} [DecidableEq α]
    (m : List (α × β)) (k : α) (hnd : (m.map Prod.fst).Nodup) :
    ((alistRemove m k).map Prod.fst).Nodup := by
  induction m with
  | nil => simpa [alistRemove] using hnd
  | cons hd tl ih =>
      obtain ⟨k', v'⟩ := hd
      simp only [List.map_cons, List.nodup_cons] at hnd
      by_cases hk : k' = k
      · subst hk; simpa [alistRemove] using hnd.2
      · simp only [alistRemove, if_neg hk, List.map_cons, List.nodup_cons]
        refine ⟨fun hmem => ?_, ih hnd.2⟩
        rcases List.mem_map.mp hmem with ⟨p, hp, he⟩
        exact hnd.1 (List.mem_map.mpr ⟨p, mem_alistRemove_imp tl k p hp, he⟩)

/-! ## Memory governor (`memory-manager.ts`) -/

/-! ## Memory governor (`memory-manager.ts`) -/

/-- One `Deno.memoryUsage()` snapshot (the fields the engine reads). -/
structure MemSnapshot where
  rss : Nat
  heapUsed : Nat
deriving DecidableEq, Repr

/-- The process memory over time: the `i`-th call to `getMemoryStats`
observes `env i`. -/
abbrev Env := Nat → MemSnapshot

/-- Engine configuration: the governor's limits and the shard capacity
(`MAX_ALLOCATED_ENTRIES`; 6,000,000 in the source). -/
structure Config where
  maxRSSBytes : Nat
  maxHeapBytes : Nat
  capacity : Nat
deriving Repr

/-- `MemoryManager.canAllocate` (`memory-manager.ts:136-148`), with the
float arithmetic carried out in exact rationals: project RSS and heap by
`estimatedBytes`, multiply by the safety margin (1.01 for estimates above
1 GiB, 1.02 otherwise), and compare against the limits. -/
def canAllocateB (rss heapUsed maxRSS maxHeap estimatedBytes : ℚ) : Bool :=
  decide
    ((rss + estimatedBytes) *
        (if estimatedBytes > 1024 * 1024 * 1024 then (101 : ℚ) / 100 else 102 / 100) ≤ maxRSS ∧
      (heapUsed + estimatedBytes) *
        (if estimatedBytes > 1024 * 1024 * 1024 then (101 : ℚ) / 100 else 102 / 100) ≤ maxHeap)

/-- `stats.isOverLimit`: RSS or heap above its limit. -/
def isOverLimit (snap : MemSnapshot) (cfg : Config) : Bool :=
  snap.rss > cfg.maxRSSBytes || snap.heapUsed > cfg.maxHeapBytes

mutual

/-- `MemoryManager.estimateDataSize`: 24 + byte length for byte arrays,
per-element sum + 8·length for arrays, 2·length for strings, 8 for
numbers, 1 for booleans, 24 + Σ (2·keylen + 16 + recurse) for objects, 0
otherwise. -/
def estimateDataSize : Val → Nat
  | .vBytes bytes => bytes.length + 24
  | .vArr elems => estimateArrSize elems + elems.length * 8
  | .vStr s => s.length * 2
  | .vNum _ => 8
  | .vBool _ => 1
  | .vObj fields => 24 + estimateObjSize fields
  | .vUndef => 0
  | .vNull => 0

/-- The reduce over an array's elements inside `estimateDataSize`. -/
def estimateArrSize : List Val → Nat
  | [] => 0
  | v :: rest => estimateDataSize v + estimateArrSize rest

/-- The per-field loop (`2·keylen + value estimate + 16`) inside
`estimateDataSize` for plain objects. -/
def estimateObjSize : List (String × Val) → Nat
  | [] => 0
  | (k, v) :: rest => (k.length * 2 + estimateDataSize v + 16) + estimateObjSize rest

end

/-- `MemoryManager.estimateDataSizeBulk`: the sum of per-document estimates. -/
def estimateDataSizeBulk (docs : List Val) : Nat :=
  (docs.map estimateDataSize).sum

/-- `canAllocate` over the integer byte counts the engine feeds it, with
the margin comparison carried out in scaled integers so that it is kernel
computable.  `canAllocateNat_eq_canAllocateB` shows it agrees with the
rational-arithmetic transcription `canAllocateB` of the source. -/
def canAllocateNat (rss heapUsed maxRSS maxHeap estimatedBytes : Nat) : Bool :=
  if estimatedBytes > 1024 * 1024 * 1024 then
    decide ((rss + estimatedBytes) * 101 ≤ maxRSS * 100 ∧
      (heapUsed + estimatedBytes) * 101 ≤ maxHeap * 100)
  else
    decide ((rss + estimatedBytes) * 102 ≤ maxRSS * 100 ∧
      (heapUsed + estimatedBytes) * 102 ≤ maxHeap * 100)

theorem mul_ratio_le_iff (a b m : Nat) :
    ((a : ℚ) * ((m : ℚ) / 100) ≤ b) ↔ a * m ≤ b * 100 := by
  rw [mul_div_assoc', div_le_iff₀ (by norm_num : (0 : ℚ) < 100)]
  exact_mod_cast Iff.rfl

theorem canAllocateNat_eq_canAllocateB (rss heapUsed maxRSS maxHeap est : Nat) :
    canAllocateNat rss heapUsed maxRSS maxHeap est =
      canAllocateB rss heapUsed maxRSS maxHeap est := by
  unfold canAllocateNat canAllocateB
  have hgib : ((est : ℚ) > 1024 * 1024 * 1024) ↔ est > 1024 * 1024 * 1024 := by
    exact_mod_cast Iff.rfl
  by_cases hc : est > 1024 * 1024 * 1024
  · rw [if_pos hc, if_pos (hgib.mpr hc), decide_eq_decide]
    have h1 := mul_ratio_le_iff (rss + est) maxRSS 101
    have h2 := mul_ratio_le_iff (heapUsed + est) maxHeap 101
    push_cast at h1 h2
    rw [← h1, ← h2]
  · rw [if_neg hc, if_neg (fun h => hc (hgib.mp h)), decide_eq_decide]
    have h1 := mul_ratio_le_iff (rss + est) maxRSS 102
    have h2 := mul_ratio_le_iff (heapUsed + est) maxHeap 102
    push_cast at h1 h2
    rw [← h1, ← h2]

/-! ## Predicate grammar (`collection-manager.ts`) and its evaluation
(`MapManager.matchesWhere` / `MapManager.evaluateOperators`,
`part_015:525-576`) -/

/-- `QueryOperators`: a struct of optional operators.  `in` is a Lean
keyword, so the field is called `inList`. -/
structure QueryOperators where
  eq : Option Val := none
  gt : Option Val := none
  lt : Option Val := none
  gte : Option Val := none
  lte : Option Val := none
  inList : Option (List Val) := none
  nin : Option (List Val) := none
  contains : Option Val := none
  overlap : Option (List Val) := none

/-- `QueryOperatorsWithNot`: `QueryOperators` plus the optional `not`
operator set (`notOp` here; the inner set carries no `not` of its own). -/
structure QueryOperatorsWithNot extends QueryOperators where
  notOp : Option QueryOperators := none

/-- `WhereQuery`: `{AND: Where[]} | {OR: Where[]} | {field, op}`. -/
inductive WhereQuery where
  | and (subs : List WhereQuery)
  | or (subs : List WhereQuery)
  | cond (field : String) (op : QueryOperatorsWithNot)

/-- `Array.prototype.includes` with `===` element comparison. -/
def jsIncludes (elems : List Val) (v : Val) : Bool :=
  elems.any (fun x => jsEq x v)

/-- `doc[field]`: property access; `undefined` on a missing field or a
non-object document. -/
def getField (doc : Val) (field : String) : Val :=
  (match doc with
    | .vObj fields => alistGet fields field
    | _ => none).getD (.vUndef)

/-- One `if (ops.x) ok &&= check(value, ops.x)` step of
`evaluateOperators`: skipped when the operand is absent — or present but
falsy, since the guard is JavaScript truthiness. -/
def opStep (ok : Bool) (operand : Option Val) (check : Val → Bool) : Bool :=
  match operand with
  | some v => if truthy v then ok && check v else ok
  | none => ok

/-- The list-operand steps (`in`, `nin`, `overlap`): an array — even an
empty one — is always truthy, so a present operand always applies. -/
def opStepList (ok : Bool) (operand : Option (List Val)) (check : List Val → Bool) : Bool :=
  match operand with
  | some l => ok && check l
  | none => ok

/-- The `contains` check: element membership on array values, substring
(of the stringified operand) on string values, otherwise `ok = false`. -/
def containsCheck (value operand : Val) : Bool :=
  match value with
  | .vArr elems => jsIncludes elems operand
  | .vStr s => strIncludes s (jsToStringPrim operand)
  | _ => false

/-- The `overlap` check: some operand element occurs in the array value;
`false` on non-array values. -/
def overlapCheck (value : Val) (operand : List Val) : Bool :=
  match value with
  | .vArr elems => operand.any (fun v => jsIncludes elems v)
  | _ => false

/-- The sequential `ok &&= …` chain of `evaluateOperators`
(`part_015:542-576`) over the nine non-`not` operators, in source order.
The source's `ok = false` else-branches of `contains`/`overlap` equal
`ok && false` as values and live inside `containsCheck`/`overlapCheck`. -/
def evalCore (value : Val) (ops : QueryOperators) : Bool :=
  let ok := true
  let ok := opStep ok ops.eq (fun v => jsEq value v)
  let ok := opStep ok ops.gt (fun v => jsGt value v)
  let ok := opStep ok ops.lt (fun v => jsLt value v)
  let ok := opStep ok ops.gte (fun v => jsGe value v)
  let ok := opStep ok ops.lte (fun v => jsLe value v)
  let ok := opStepList ok ops.inList (fun l => jsIncludes l value)
  let ok := opStepList ok ops.nin (fun l => !jsIncludes l value)
  let ok := opStep ok ops.contains (fun v => containsCheck value v)
  let ok := opStepList ok ops.overlap (fun l => overlapCheck value l)
  ok

/-- `evaluateOperators`: the core chain, then `if (ops.not) ok &&=
!evaluateOperators(value, ops.not)`.  The recursive call receives a plain
`QueryOperators` (whose `not` is absent), so it unfolds to `evalCore`. -/
def evalOps (value : Val) (ops : QueryOperatorsWithNot) : Bool :=
  let ok := evalCore value ops.toQueryOperators
  match ops.notOp with
  | some n => ok && !evalCore value n
  | none => ok

mutual

/-- `MapManager.matchesWhere` (`part_015:525-540`): a condition checks its
field's operators; `AND` requires every branch, `OR` some branch. -/
def matchesWhere (doc : Val) : WhereQuery → Bool
  | .cond field op => evalOps (getField doc field) op
  | .and subs => matchesAll doc subs
  | .or subs => matchesAny doc subs

/-- `where.AND.every(sub => matchesWhere(doc, sub))`. -/
def matchesAll (doc : Val) : List WhereQuery → Bool
  | [] => true
  | w :: rest => matchesWhere doc w && matchesAll doc rest

/-- `where.OR.some(sub => matchesWhere(doc, sub))`. -/
def matchesAny (doc : Val) : List WhereQuery → Bool
  | [] => false
  | w :: rest => matchesWhere doc w || matchesAny doc rest

end

/-! ## Per-shard document store (`InMemoryDataStore`, `part_010`)

The store keeps, per collection, the `DocId → doc` map, the `nextId`
counter and the live `size`.  The catalog is the list of declared
collection names, consulted through `ensure` = `catalog.exists`. -/

structure CollectionState where
  map : List (DocId × Val)
  nextId : DocId
  size : Nat

/-- The `Map<CollectionName, CollectionState>` backing one store. -/
abbrev DSData := List (CollectionName × CollectionState)

/-- `ensureState(name, options)`: return the existing state or insert a
fresh one built from `options` (`nextId` and `size` seeds). -/
def dsEnsureState (data : DSData) (name : CollectionName)
    (nextId0 : Nat := 0) (size0 : Nat := 0) : CollectionState × DSData :=
  match alistGet data name with
  | some st => (st, data)
  | none =>
      let st : CollectionState := ⟨[], nextId0, size0⟩
      (st, data ++ [(name, st)])

/-- `InMemoryDataStore.get`. -/
def dsGet (data : DSData) (name : CollectionName) (docId : DocId) :
    Resp (DocId × Val) :=
  match alistGet data name with
  | none => { status := .ERROR }
  | some st =>
      match alistGet st.map docId with
      | none => { status := .ERROR }
      | some doc => { status := .OK, data := some (docId, doc) }

/-- `InMemoryDataStore.set`: allocate `nextId`, store the document, bump
the size, append the record to the archive.  The third component is the
list of records handed to `Archive.addRecord` by this call. -/
def dsSet (catalog : List CollectionName) (data : DSData) (name : CollectionName)
    (doc : Val) : Resp DocId × DSData × List Val :=
  if catalog.contains name then
    let (st, data) := dsEnsureState data name
    let id := st.nextId
    let st := { st with nextId := id + 1, map := alistSet st.map id doc, size := st.size + 1 }
    ({ status := .OK, data := some id }, alistSet data name st, [doc])
  else ({ status := .ERROR }, data, [])

/-- `InMemoryDataStore.update`: replace in place; no log append. -/
def dsUpdate (data : DSData) (name : CollectionName) (docId : DocId)
    (patch : Val) : Resp (DocId × Val) × DSData :=
  match alistGet data name with
  | none => ({ status := .ERROR }, data)
  | some st =>
      if alistHas st.map docId then
        let st := { st with map := alistSet st.map docId patch }
        ({ status := .OK, data := some (docId, patch) }, alistSet data name st)
      else ({ status := .ERROR }, data)

/-- `InMemoryDataStore.delete`: remove the entry and decrement the size on
a hit. -/
def dsDelete (data : DSData) (name : CollectionName) (docId : DocId) :
    Resp DocId × DSData :=
  match alistGet data name with
  | none => ({ status := .ERROR }, data)
  | some st =>
      if alistHas st.map docId then
        let st := { st with map := alistRemove st.map docId, size := st.size - 1 }
        ({ status := .OK, data := some docId }, alistSet data name st)
      else ({ status := .ERROR }, data)

/-- `InMemoryDataStore.size(name).data`. -/
def dsSize (data : DSData) (name : CollectionName) : Option Nat :=
  (alistGet data name).map (fun st => st.size)

/-- `InMemoryDataStore.getAll`: the collection's whole map
(`ensureState` inserts an empty state for a declared but untouched name). -/
def dsGetAll (catalog : List CollectionName) (data : DSData)
    (name : CollectionName) : Resp (List (DocId × Val)) × DSData :=
  if catalog.contains name then
    let (st, data) := dsEnsureState data name
    ({ status := .OK, data := some st.map }, data)
  else ({ status := .ERROR }, data)

/-- The id-allocation loop of `InMemoryDataStore.setMany`: for each
document allocate `nextId` and store it. -/
def dsAllocLoop (st : CollectionState) : List Val → CollectionState × List DocId
  | [] => (st, [])
  | doc :: rest =>
      let id := st.nextId
      let st := { st with nextId := id + 1, map := alistSet st.map id doc }
      let (st, ids) := dsAllocLoop st rest
      (st, id :: ids)

/-- `InMemoryDataStore.setMany`: allocate and store every document, add
the batch size, then append every record to the archive in input order. -/
def dsSetMany (catalog : List CollectionName) (data : DSData)
    (name : CollectionName) (docs : List Val) :
    Resp (List DocId) × DSData × List Val :=
  if catalog.contains name then
    let (st, data) := dsEnsureState data name
    let (st, ids) := dsAllocLoop st docs
    let st := { st with size := st.size + docs.length }
    ({ status := .OK, data := some ids }, alistSet data name st, docs)
  else ({ status := .ERROR }, data, [])

/-! ## Sharded map manager (`MapManager`, `part_015`)

`maps` is the insertion-ordered shard list; `currentMapIndex` always
points at the last shard, so the model operates on the list's last
element.  The LRU index maps `"name:docId"` keys to `(lastAccessed,
size)`; `Date.now()` is modelled by the monotone `tick` counter.  The
`archive` field is the sequence of records handed to the (process-global)
`Archive` singleton, i.e. the append-only log content in order. -/

structure Shard where
  store : DSData
  size : Int

structure MgrState where
  shards : List Shard
  catalog : List CollectionName
  lru : List (String × (Nat × Nat))
  archive : List Val
  monitoring : Bool
  envIdx : Nat
  tick : Nat

/-- A fresh `MapManager` over a catalog: one empty shard. -/
def initState (catalog : List CollectionName) : MgrState :=
  { shards := [{ store := [], size := 0 }], catalog := catalog,
    lru := [], archive := [], monitoring := true, envIdx := 0, tick := 0 }

/-- `createLRUKey`. -/
def lruKey (name : CollectionName) (docId : DocId) : String :=
  name ++ ":" ++ toString docId

/-- `getMemoryStats`: observe the next environment snapshot. -/
def getStats (env : Env) (s : MgrState) : MemSnapshot × MgrState :=
  (env s.envIdx, { s with envIdx := s.envIdx + 1 })

/-- `memoryManager.canAllocate` as called by the manager: one stats
sample, then the margin comparison. -/
def mgrCanAllocate (cfg : Config) (env : Env) (s : MgrState) (est : Nat) :
    Bool × MgrState :=
  let (snap, s) := getStats env s
  (canAllocateNat snap.rss snap.heapUsed cfg.maxRSSBytes cfg.maxHeapBytes est, s)

def stopMonitoring (s : MgrState) : MgrState := { s with monitoring := false }

/-- `trackAccess`: upsert the LRU entry at the current time. -/
def trackAccess (s : MgrState) (key : String) (size : Nat) : MgrState :=
  { s with lru := alistSet s.lru key (s.tick, size), tick := s.tick + 1 }

/-- `trackAccessBulk`: upsert many entries at one shared timestamp. -/
def trackAccessBulk (s : MgrState) (entries : List (String × Nat)) : MgrState :=
  { s with
    lru := entries.foldl (fun l e => alistSet l e.1 (s.tick, e.2)) s.lru
    tick := s.tick + 1 }

/-- `removeFromLRU`. -/
def removeFromLRU (s : MgrState) (key : String) : MgrState :=
  { s with lru := alistRemove s.lru key }

/-- `getCurrentMap` (`part_015:167-191`): if the active shard's entry
counter has reached the capacity, append a fresh shard whose per-collection
state is seeded from the active shard: `nextId := size(c) + 1` and
`size := size(c)`.

Divergence, documented: the source reads `currentMap.map.size(c).data!`,
and `size` (`part_010:148-151`) answers `ERROR` with **no** `data` field
when `c` has no state in that shard — so for a declared collection never
touched in the rotating shard the source seeds `nextId = undefined + 1 =
NaN` and `size = undefined`.  Every id such a poisoned allocator hands out
is `NaN`; the `Map` collapses all `NaN` keys into one entry, so a bulk
insert there keeps only its last document.  `NaN`-valued ids are not
representable in this `Nat`-indexed model: the model writes `0` where the
source has `undefined`, and no theorem in this file quantifies into that
branch (every rotation exercised below happens with the collection present
in the rotating shard).  The `NaN` behaviour itself is reported, from the
source, as part of the `setMany`-atomicity finding. -/
def mgrRotate (cfg : Config) (s : MgrState) : MgrState :=
  match s.shards.getLast? with
  | none => s
  | some cur =>
      if cur.size ≥ (cfg.capacity : Int) then
        let fresh : DSData := s.catalog.map (fun c =>
          let sz := (dsSize cur.store c).getD 0
          (c, { map := [], nextId := sz + 1, size := sz }))
        { s with shards := s.shards ++ [{ store := fresh, size := 0 }] }
      else s

/-- Apply `f` to the last (= active) shard. -/
def mapLastShard (f : Shard → Shard) : List Shard → List Shard
  | [] => []
  | [sh] => [f sh]
  | sh :: rest => sh :: mapLastShard f rest

/-- `MapManager.set` (`part_015:218-232`): rotate if needed, bump the
active shard's counter, insert into the active shard's store, and track
the new id in the LRU on success. -/
def mgrSet (cfg : Config) (s : MgrState) (name : CollectionName) (doc : Val) :
    Resp DocId × MgrState :=
  let s := mgrRotate cfg s
  match s.shards.getLast? with
  | none => ({ status := .ERROR }, s)
  | some cur =>
      let (r, store', appended) := dsSet s.catalog cur.store name doc
      let s := { s with
        shards := mapLastShard (fun sh => { store := store', size := sh.size + 1 }) s.shards,
        archive := s.archive ++ appended }
      match r with
      | { status := .OK, data := some id } =>
          (r, trackAccess s (lruKey name id) (estimateDataSize doc))
      | _ => (r, s)

/-- `findIdInMap`: the first shard (in insertion order) whose store has
the id. -/
def findShardIdx (s : MgrState) (name : CollectionName) (docId : DocId) :
    Option Nat :=
  s.shards.findIdx? (fun sh => (dsGet sh.store name docId).status == Status.OK)

/-- `MapManager.get` (`part_015:202-216`): locate the owning shard, read
the document, refresh the LRU entry on a hit. -/
def mgrGet (s : MgrState) (name : CollectionName) (docId : DocId) :
    Resp (DocId × Val) × MgrState :=
  match findShardIdx s name docId with
  | none => ({ status := .ERROR }, s)
  | some i =>
      match s.shards.get? i with
      | none => ({ status := .ERROR }, s)
      | some sh =>
          let result := dsGet sh.store name docId
          match result with
          | { status := .OK, data := some (_, doc) } =>
              (result, trackAccess s (lruKey name docId) (estimateDataSize doc))
          | _ => (result, s)

/-- `MapManager.update`: locate the owning shard and replace in place. -/
def mgrUpdate (s : MgrState) (name : CollectionName) (docId : DocId)
    (doc : Val) : Resp (DocId × Val) × MgrState :=
  match findShardIdx s name docId with
  | none => ({ status := .ERROR }, s)
  | some i =>
      match s.shards.get? i with
      | none => ({ status := .ERROR }, s)
      | some sh =>
          let (r, store') := dsUpdate sh.store name docId doc
          (r, { s with shards := s.shards.set i { sh with store := store' } })

/-- `MapManager.delete` (`part_015:245-259`): locate the owning shard,
decrement its counter, delete from its store, and drop the LRU entry on
success. -/
def mgrDelete (s : MgrState) (name : CollectionName) (docId : DocId) :
    Resp DocId × MgrState :=
  match findShardIdx s name docId with
  | none => ({ status := .ERROR }, s)
  | some i =>
      match s.shards.get? i with
      | none => ({ status := .ERROR }, s)
      | some sh =>
          let (r, store') := dsDelete sh.store name docId
          let s := { s with shards := s.shards.set i { store := store', size := sh.size - 1 } }
          match r.status with
          | .OK => (r, removeFromLRU s (lruKey name docId))
          | .ERROR => (r, s)

/-- `MapManager.mapsCount`. -/
def mapsCount (s : MgrState) : Nat := s.shards.length

/-- `MapManager.size`: the sum of the shard entry counters. -/
def mgrSize (s : MgrState) : Int := (s.shards.map Shard.size).sum

/-- The loop of `MapManager.getMany`: per-id `this.get` (so hits refresh
the LRU), misses silently skipped. -/
def mgrGetManyLoop (name : CollectionName) :
    List DocId → MgrState → List (DocId × Val) × MgrState
  | [], s => ([], s)
  | id :: rest, s =>
      let (r, s) := mgrGet s name id
      match r with
      | { status := .OK, data := some (_, doc) } =>
          let (acc, s) := mgrGetManyLoop name rest s
          ((id, doc) :: acc, s)
      | _ => mgrGetManyLoop name rest s

/-- `MapManager.getMany`: always `OK` with the hit map. -/
def mgrGetMany (s : MgrState) (name : CollectionName) (docIds : List DocId) :
    Resp (List (DocId × Val)) × MgrState :=
  let (results, s) := mgrGetManyLoop name docIds s
  ({ status := .OK, data := some results }, s)

/-- The loop of `MapManager.updateMany`: stop with `ERROR` at the first
failing update (earlier updates keep their effect). -/
def mgrUpdateManyLoop (name : CollectionName) :
    List (DocId × Val) → MgrState → Status × MgrState
  | [], s => (.OK, s)
  | (id, doc) :: rest, s =>
      let (r, s) := mgrUpdate s name id doc
      match r.status with
      | .OK => mgrUpdateManyLoop name rest s
      | .ERROR => (.ERROR, s)

/-- `MapManager.updateMany`. -/
def mgrUpdateMany (s : MgrState) (name : CollectionName)
    (updates : List (DocId × Val)) : Resp Unit × MgrState :=
  let (st, s) := mgrUpdateManyLoop name updates s
  ({ status := st }, s)

/-- The loop of `MapManager.deleteMany` (`part_015:485-503`): per id,
locate the owning shard and delete directly from its store — decrementing
the shard counter and recording the id on success — without touching the
LRU index. -/
def mgrDeleteManyLoop (name : CollectionName) :
    List DocId → MgrState → List DocId × MgrState
  | [], s => ([], s)
  | id :: rest, s =>
      match findShardIdx s name id with
      | none => mgrDeleteManyLoop name rest s
      | some i =>
          match s.shards.get? i with
          | none => mgrDeleteManyLoop name rest s
          | some sh =>
              let (r, store') := dsDelete sh.store name id
              match r.status with
              | .OK =>
                  let s := { s with
                    shards := s.shards.set i { store := store', size := sh.size - 1 } }
                  let (acc, s) := mgrDeleteManyLoop name rest s
                  (id :: acc, s)
              | .ERROR =>
                  let s := { s with shards := s.shards.set i { sh with store := store' } }
                  mgrDeleteManyLoop name rest s

/-- `MapManager.deleteMany`: always `OK` with the ids actually removed. -/
def mgrDeleteMany (s : MgrState) (name : CollectionName) (docIds : List DocId) :
    Resp (List DocId) × MgrState :=
  let (deleted, s) := mgrDeleteManyLoop name docIds s
  ({ status := .OK, data := some deleted }, s)

/-- The shard loop of `MapManager.find` (`part_015:505-523`): per shard,
`getAll` the collection and keep the entries matching the predicate, in
shard order then map insertion order. -/
def mgrFindLoop (catalog : List CollectionName) (name : CollectionName)
    (w : WhereQuery) : List Shard → List (DocId × Val) × List Shard
  | [] => ([], [])
  | sh :: rest =>
      let (r, store') := dsGetAll catalog sh.store name
      let here :=
        match r with
        | { status := .OK, data := some entries } =>
            entries.filter (fun e => matchesWhere e.2 w)
        | _ => []
      let (acc, rest') := mgrFindLoop catalog name w rest
      (here ++ acc, { sh with store := store' } :: rest')

/-- `MapManager.find`: full scan over every shard; always `OK`. -/
def mgrFind (s : MgrState) (name : CollectionName) (w : WhereQuery) :
    Resp (List (DocId × Val)) × MgrState :=
  let (results, shards') := mgrFindLoop s.catalog name w s.shards
  ({ status := .OK, data := some results }, { s with shards := shards' })

/-! ### `setMany` and the chunked ingest path (`part_015:284-453`) -/

/-- The admission estimate of `setMany`:
`estimateDataSizeBulk(docs) + 32·n + min(50·n, 512 KiB)`. -/
def setManyEstimate (docs : List Val) : Nat :=
  estimateDataSizeBulk docs + docs.length * 32 + min (docs.length * 50) (512 * 1024)

/-- The committing tail of `setMany`: re-sample the stats and refuse when
already over limit; otherwise rotate if needed, add the batch to the
active shard's counter, bulk-insert, and bulk-track LRU entries on
success. -/
def mgrSetManyCommit (cfg : Config) (env : Env) (s : MgrState)
    (name : CollectionName) (docs : List Val) : Resp (List DocId) × MgrState :=
  let (snap, s) := getStats env s
  if isOverLimit snap cfg then ({ status := .ERROR }, s)
  else
    let s := mgrRotate cfg s
    match s.shards.getLast? with
    | none => ({ status := .ERROR }, s)
    | some cur =>
        let (r, store', appended) := dsSetMany s.catalog cur.store name docs
        let s := { s with
          shards := mapLastShard
            (fun sh => { store := store', size := sh.size + docs.length }) s.shards,
          archive := s.archive ++ appended }
        match r with
        | { status := .OK, data := some ids } =>
            (r, trackAccessBulk s
              ((ids.zip docs).map (fun p => (lruKey name p.1, estimateDataSize p.2))))
        | _ => (r, s)

/-- `setMany` as called with `isChunked = true`: estimate, admission
check — on refusal stop the monitor and return `ERROR` (no chunk
fallback) — then commit. -/
def mgrSetManyCore (cfg : Config) (env : Env) (s : MgrState)
    (name : CollectionName) (docs : List Val) : Resp (List DocId) × MgrState :=
  let est := setManyEstimate docs
  let (ca, s) := mgrCanAllocate cfg env s est
  if ca then mgrSetManyCommit cfg env s name docs
  else ({ status := .ERROR }, stopMonitoring s)

/-- `docs.slice(i, i + n)` windows of the chunked loop; the fuel (the list
length suffices, since `n ≥ 1000`) makes the recursion structural. -/
def chunksOfFuel (fuel n : Nat) (xs : List Val) : List (List Val) :=
  match fuel with
  | 0 => []
  | fuel + 1 => if xs.isEmpty then [] else xs.take n :: chunksOfFuel fuel n (xs.drop n)

/-- The chunk loop of `setManyChunked`: run each chunk through `setMany`
with `isChunked = true`; abort with `ERROR` on the first failing chunk
(already committed chunks keep their effect); otherwise concatenate the
ids. -/
def chunkLoop (cfg : Config) (env : Env) (name : CollectionName) :
    List (List Val) → MgrState → List DocId → Resp (List DocId) × MgrState
  | [], s, acc => ({ status := .OK, data := some acc }, s)
  | c :: rest, s, acc =>
      let (r, s) := mgrSetManyCore cfg env s name c
      match r with
      | { status := .OK, data := some ids } => chunkLoop cfg env name rest s (acc ++ ids)
      | _ => ({ status := .ERROR }, s)

/-- `MapManager.setManyChunked` (`part_015:377-453`): size the chunks
from the available memory (80% of `max(available, 200 MiB)` divided by a
sample-document estimate, clamped to [1000, 50000], capped at 5000 when
less than 100 MiB is available), then run the chunk loop.  A
zero-estimate sample document makes the JavaScript division `Infinity`
(so the 50000 cap); the model returns the cap directly in that case. -/
def mgrSetManyChunked (cfg : Config) (env : Env) (s : MgrState)
    (name : CollectionName) (docs : List Val) : Resp (List DocId) × MgrState :=
  let (snap, s) := getStats env s
  let availableMemory : Int := (cfg.maxRSSBytes : Int) - snap.rss
  let sampleSize := estimateDataSize (docs.headD .vUndef)
  let safeAvailable : Nat := (max availableMemory (200 * 1024 * 1024)).toNat
  let maxChunkSize : Nat :=
    if sampleSize = 0 then 50000 else safeAvailable * 4 / (5 * sampleSize)
  let chunkSize := max (min maxChunkSize 50000) 1000
  let finalChunkSize := if chunkSize < 1000 then 1000 else chunkSize
  let finalChunkSize :=
    if availableMemory < 100 * 1024 * 1024 then min finalChunkSize 5000 else finalChunkSize
  chunkLoop cfg env name (chunksOfFuel docs.length finalChunkSize docs) s []

/-- `MapManager.setMany` (`part_015:284-375`), the `isChunked = false`
entry: estimate, admission check; on refusal fall back to chunked ingest
when the batch exceeds 10000 documents, otherwise stop the monitor and
return `ERROR`; on admission, commit. -/
def mgrSetMany (cfg : Config) (env : Env) (s : MgrState)
    (name : CollectionName) (docs : List Val) : Resp (List DocId) × MgrState :=
  let est := setManyEstimate docs
  let (ca, s) := mgrCanAllocate cfg env s est
  if ca then mgrSetManyCommit cfg env s name docs
  else if docs.length > 10000 then mgrSetManyChunked cfg env s name docs
  else ({ status := .ERROR }, stopMonitoring s)

end ShinDB

namespace ShinDB

/-- C7 — `canAllocate` soundness.  `canAllocate(x)` is `true` iff both the
projected RSS `rss + x` and the projected heap `heapUsed + x`, multiplied
by the safety margin (1.02 when `x ≤ 1 GiB`, 1.01 otherwise), stay within
`maxRssBytes` resp. `maxHeapBytes`; and (for non-negative readings) it is
never `true` while `rss + x > maxRss` or `heap + x > maxHeap`. -/
theorem canAllocate_sound (rss heapUsed maxRSS maxHeap x : ℚ)
    (hrss : 0 ≤ rss) (hheap : 0 ≤ heapUsed) (hx : 0 ≤ x) :
    (canAllocateB rss heapUsed maxRSS maxHeap x = true ↔
      ((rss + x) * (if x ≤ 1024 * 1024 * 1024 then (102 : ℚ) / 100 else 101 / 100) ≤ maxRSS ∧
       (heapUsed + x) * (if x ≤ 1024 * 1024 * 1024 then (102 : ℚ) / 100 else 101 / 100) ≤ maxHeap)) ∧
    (canAllocateB rss heapUsed maxRSS maxHeap x = true →
      rss + x ≤ maxRSS ∧ heapUsed + x ≤ maxHeap) := by
  have hmargin :
      ((if x > 1024 * 1024 * 1024 then (101 : ℚ) / 100 else 102 / 100) =
        if x ≤ 1024 * 1024 * 1024 then (102 : ℚ) / 100 else 101 / 100) := by
    by_cases h : x ≤ 1024 * 1024 * 1024
    · simp [h, not_lt.mpr h]
    · simp [h, lt_of_not_le h]
  constructor
  · unfold canAllocateB
    rw [hmargin]
    simp
  · intro h
    unfold canAllocateB at h
    rw [hmargin] at h
    simp only [decide_eq_true_eq] at h
    obtain ⟨h1, h2⟩ := h
    by_cases hc : x ≤ 1024 * 1024 * 1024 <;> simp only [hc, if_pos, if_neg, if_true, if_false] at h1 h2 <;>
      constructor <;> nlinarith

/-- Witness for `canAllocate_sound` at a concrete input. -/
theorem canAllocate_sound_witness :
    (0 : ℚ) ≤ 10 ∧ (0 : ℚ) ≤ 20 ∧ (0 : ℚ) ≤ 30 ∧
    (canAllocateB 10 20 1000 1000 30 = true →
      (10 : ℚ) + 30 ≤ 1000 ∧ (20 : ℚ) + 30 ≤ 1000) := by
  refine ⟨by norm_num, by norm_num, by norm_num, ?_⟩
  exact (canAllocate_sound 10 20 1000 1000 30 (by norm_num) (by norm_num) (by norm_num)).2

/-! ## The rotation-seeding traces

The specification's scenario "with capacity lowered to 2" drives the
engine across a shard rotation with a handful of operations.  `capTwo`
has generous memory limits (so admission always passes) and capacity 2;
`envZero` reports an idle process.  Two traces on the single collection
`"c"`:

* `rot1–rot3`: three straight `set` calls;
* `reuse1–reuse7`: two `set`s, two `delete`s, three more `set`s — the
  seventh `set` triggers the rotation with the active shard holding ids
  `{2, 3}` while the collection's `size` is 2, so the fresh shard's
  `nextId` is seeded to `size + 1 = 3` and the call hands out id 3 a
  second time; `bulk8` then bulk-inserts three documents into the
  two-capacity active shard. -/

def capTwo : Config :=
  { maxRSSBytes := 1000000000000, maxHeapBytes := 1000000000000, capacity := 2 }

def envZero : Env := fun _ => ⟨0, 0⟩

def reuse1 := mgrSet capTwo (initState ["c"]) "c" (.vNum 100)
def reuse2 := mgrSet capTwo reuse1.2 "c" (.vNum 101)
def reuse3 := mgrDelete reuse2.2 "c" 0
def reuse4 := mgrDelete reuse3.2 "c" 1
def reuse5 := mgrSet capTwo reuse4.2 "c" (.vNum 102)
def reuse6 := mgrSet capTwo reuse5.2 "c" (.vNum 103)
def reuse7 := mgrSet capTwo reuse6.2 "c" (.vNum 104)
def bulk8 := mgrSetMany capTwo envZero reuse7.2 "c" [.vNum 105, .vNum 106, .vNum 107]

def rot1 := mgrSet capTwo (initState ["c"]) "c" (.vNum 200)
def rot2 := mgrSet capTwo rot1.2 "c" (.vNum 201)
def rot3 := mgrSet capTwo rot2.2 "c" (.vNum 202)

/-! ## Wire dispatch (`ProtocolV2.processMessage`, `part_014:147-223`) -/

/-- The decoded payload shapes a well-framed request carries, per action:
`create` the document itself, `get`/`delete` an object with `docId`,
`update` an object with `query.docId` and `update`, `createMany` a
document list, `getMany` an id list, `updateMany` a list of `{id, doc}`,
`find` a `Where` expression. -/
inductive ReqPayload where
  | doc (d : Val)
  | byId (docId : DocId)
  | updateOne (docId : DocId) (update : Val)
  | docs (ds : List Val)
  | ids (l : List DocId)
  | updates (l : List (DocId × Val))
  | whereQ (w : WhereQuery)

/-- The engine responses the dispatch returns, one per action, encoded
and framed by `sendResponse`. -/
inductive ProtoOut where
  | setR (r : Resp DocId)
  | getR (r : Resp (DocId × Val))
  | updateR (r : Resp (DocId × Val))
  | deleteR (r : Resp DocId)
  | setManyR (r : Resp (List DocId))
  | getManyR (r : Resp (List (DocId × Val)))
  | updateManyR (r : Resp Unit)
  | findR (r : Resp (List (DocId × Val)))

/-- `ProtocolV2.processMessage`: a switch over the action string with
cases for exactly `create`, `get`, `update`, `delete`, `createMany`,
`getMany`, `updateMany` and `find`; everything else — `deleteMany`
included — reaches `default` and throws `Unknown action`, which
`handleConnection` answers by closing the connection (modelled by
`Except.error`).  The source projects payload fields without shape
checks; the model throws on an action/shape mismatch, a case outside the
well-framed requests the claims quantify over. -/
def processMessage (cfg : Config) (env : Env) (s : MgrState)
    (action : String) (collection : String) (payload : ReqPayload) :
    Except String (ProtoOut × MgrState) :=
  match action, payload with
  | "create", .doc d =>
      let (r, s) := mgrSet cfg s collection d
      .ok (.setR r, s)
  | "get", .byId id =>
      let (r, s) := mgrGet s collection id
      .ok (.getR r, s)
  | "update", .updateOne id u =>
      let (r, s) := mgrUpdate s collection id u
      .ok (.updateR r, s)
  | "delete", .byId id =>
      let (r, s) := mgrDelete s collection id
      .ok (.deleteR r, s)
  | "createMany", .docs ds =>
      let (r, s) := mgrSetMany cfg env s collection ds
      .ok (.setManyR r, s)
  | "getMany", .ids l =>
      let (r, s) := mgrGetMany s collection l
      .ok (.getManyR r, s)
  | "updateMany", .updates l =>
      let (r, s) := mgrUpdateMany s collection l
      .ok (.updateManyR r, s)
  | "find", .whereQ w =>
      let (r, s) := mgrFind s collection w
      .ok (.findR r, s)
  | "create", _ | "get", _ | "update", _ | "delete", _ | "createMany", _
  | "getMany", _ | "updateMany", _ | "find", _ =>
      .error "malformed payload"
  | a, _ => .error ("Unknown action: " ++ a)

/-- The eight action strings `processMessage` dispatches. -/
def dispatchedActions : List String :=
  ["create", "get", "update", "delete", "createMany", "getMany", "updateMany", "find"]

/-- C1 — the engine-surface round-trip `get(set(d).id).doc == d` fails on
the code.  In the `reuse` trace the seventh `set` succeeds returning
id 3 for document `vNum 104` (no later `update`/`delete` — indeed no later
operation at all), yet `get("c", 3)` answers `OK` with `vNum 103`: the
rotation seeded the fresh shard's `nextId` to `size + 1`, id 3 was handed
out twice, and `get` resolves it in the older shard. -/
theorem roundtrip_violated_after_rotation :
    reuse7.1 = { status := .OK, data := some 3 } ∧
    (mgrGet reuse7.2 "c" 3).1 = { status := .OK, data := some (3, .vNum 103) } ∧
    Val.vNum 103 ≠ Val.vNum 104 := by
  refine ⟨rfl, rfl, ?_⟩
  intro h
  injection h with h'
  exact absurd h' (by decide)

/-- C2 — monotonic DocId allocation fails on the code: in the `reuse`
trace the sixth and seventh operations are both successful `set` calls on
the same collection (with deletes and a shard rotation in between) and
both return id 3, so the second id is not greater than the first and id 3
is reused. -/
theorem docId_monotonicity_violated :
    reuse6.1 = { status := .OK, data := some 3 } ∧
    reuse7.1 = { status := .OK, data := some 3 } ∧
    (∀ i₁ i₂ : DocId, reuse6.1.data = some i₁ → reuse7.1.data = some i₂ → ¬ i₁ < i₂) := by
  refine ⟨rfl, rfl, ?_⟩
  intro i₁ i₂ h₁ h₂
  have e₁ : i₁ = 3 := by
    have h₁' : (some 3 : Option DocId) = some i₁ := Eq.trans (by rfl) h₁
    exact (Option.some_inj.mp h₁').symm
  have e₂ : i₂ = 3 := by
    have h₂' : (some 3 : Option DocId) = some i₂ := Eq.trans (by rfl) h₂
    exact (Option.some_inj.mp h₂').symm
  subst e₁; subst e₂
  exact lt_irrefl 3

/-- C3 — with capacity 2, three straight `set` (create) calls return ids
0, 1, 3 — not 0, 1, 2 as claimed — because the fresh shard's `nextId` is
seeded to `size(c) + 1 = 3` rather than the global `nextId` 2.
`mapsCount` is 2 as claimed, but `get {docId: 2}` returns `ERROR` (id 2
was never allocated) while id 3 is the one that resolves. -/
theorem dense_ids_across_rotation_violated :
    rot1.1 = { status := .OK, data := some 0 } ∧
    rot2.1 = { status := .OK, data := some 1 } ∧
    rot3.1 = { status := .OK, data := some 3 } ∧
    rot3.1.data ≠ some 2 ∧
    mapsCount rot3.2 = 2 ∧
    (mgrGet rot3.2 "c" 2).1.status = .ERROR := by
  refine ⟨rfl, rfl, rfl, ?_, rfl, rfl⟩
  intro h
  have : (3 : DocId) = 2 := Option.some_inj.mp (by rw [← h]; rfl)
  exact absurd this (by decide)

/-- C4 — the shard bound and disjointness invariant fails on the code.
After the `reuse` trace, id 3 of collection `"c"` is present in both
shard 0 and shard 1 (the rotation seeded `nextId` into the range of ids
still held by the older shard); and after `bulk8` — a 3-document
`setMany` admitted into the active shard of the capacity-2 configuration
— that shard holds 4 entries and its entry counter reads 4 > 2 (`setMany`
checks the capacity only once before the whole batch). -/
theorem shard_bound_disjointness_violated :
    mapsCount reuse7.2 = 2 ∧
    ((reuse7.2.shards.get? 0).map (fun sh => (dsGet sh.store "c" 3).status) = some .OK) ∧
    ((reuse7.2.shards.get? 1).map (fun sh => (dsGet sh.store "c" 3).status) = some .OK) ∧
    bulk8.1.status = .OK ∧
    ((bulk8.2.shards.get? 1).map (fun sh => sh.size) = some 4) ∧
    ((bulk8.2.shards.get? 1).map
      (fun sh => (alistGet sh.store "c").map (fun st => st.map.length)) = some (some 4)) ∧
    capTwo.capacity = 2 :=
  ⟨rfl, rfl, rfl, rfl, rfl, rfl, rfl⟩

/-- C9 (counterexample) — `deleteMany` is in the claim's closed action
set, yet a well-framed `deleteMany` request is not dispatched: the switch
in `processMessage` has no `deleteMany` case, so the request reaches
`default` and throws `Unknown action`, closing the connection. -/
theorem deleteMany_not_dispatched :
    processMessage capTwo envZero (initState ["c"]) "deleteMany" "c" (.ids [0]) =
      .error "Unknown action: deleteMany" := rfl

/-- C9 (amended) — protocol dispatch over the closed set **without**
`deleteMany`: each of `create`, `get`, `update`, `delete`, `createMany`,
`getMany`, `updateMany`, `find` is dispatched to the corresponding engine
operation and answered with a framed response, and every action outside
these eight — `deleteMany` included — makes the connection close with an
error. -/
theorem protocol_dispatch_closed_set (cfg : Config) (env : Env) (s : MgrState)
    (c : String) (d u : Val) (id : DocId) (ds : List Val) (l : List DocId)
    (ups : List (DocId × Val)) (w : WhereQuery) (a : String) :
    (processMessage cfg env s "create" c (.doc d) =
      .ok (.setR (mgrSet cfg s c d).1, (mgrSet cfg s c d).2)) ∧
    (processMessage cfg env s "get" c (.byId id) =
      .ok (.getR (mgrGet s c id).1, (mgrGet s c id).2)) ∧
    (processMessage cfg env s "update" c (.updateOne id u) =
      .ok (.updateR (mgrUpdate s c id u).1, (mgrUpdate s c id u).2)) ∧
    (processMessage cfg env s "delete" c (.byId id) =
      .ok (.deleteR (mgrDelete s c id).1, (mgrDelete s c id).2)) ∧
    (processMessage cfg env s "createMany" c (.docs ds) =
      .ok (.setManyR (mgrSetMany cfg env s c ds).1, (mgrSetMany cfg env s c ds).2)) ∧
    (processMessage cfg env s "getMany" c (.ids l) =
      .ok (.getManyR (mgrGetMany s c l).1, (mgrGetMany s c l).2)) ∧
    (processMessage cfg env s "updateMany" c (.updates ups) =
      .ok (.updateManyR (mgrUpdateMany s c ups).1, (mgrUpdateMany s c ups).2)) ∧
    (processMessage cfg env s "find" c (.whereQ w) =
      .ok (.findR (mgrFind s c w).1, (mgrFind s c w).2)) ∧
    (a ∉ dispatchedActions →
      ∀ p : ReqPayload, ∃ e, processMessage cfg env s a c p = .error e) := by
  refine ⟨rfl, rfl, rfl, rfl, rfl, rfl, rfl, rfl, ?_⟩
  intro ha p
  simp only [dispatchedActions, List.mem_cons, not_or] at ha
  obtain ⟨h1, h2, h3, h4, h5, h6, h7, h8, _⟩ := ha
  cases p <;> simp [processMessage, h1, h2, h3, h4, h5, h6, h7, h8]

/-- Witness for `protocol_dispatch_closed_set`: the unknown-action branch
at the concrete action `"deleteMany"` and a concrete engine state. -/
theorem protocol_dispatch_closed_set_witness :
    "deleteMany" ∉ dispatchedActions ∧
    ∃ e, processMessage capTwo envZero (initState ["c"]) "deleteMany" "c" (.ids [0, 1]) =
      .error e :=
  ⟨by decide,
    ((protocol_dispatch_closed_set capTwo envZero (initState ["c"]) "c" (.vNum 0)
        (.vNum 0) 0 [] [] [] (.and []) "deleteMany").2.2.2.2.2.2.2.2
      (by decide) (.ids [0, 1]))⟩

/-! ## Facts about `deleteMany` and `delete` (for C10) -/

/-- The keys of collection `name`'s map are duplicate-free in `ds`. -/
def keysNodupAt (ds : DSData) (name : CollectionName) : Prop :=
  ∀ st, alistGet ds name = some st → (st.map.map Prod.fst).Nodup

/-- No shard of `s` holds `id` of collection `name`. -/
def absentEverywhere (s : MgrState) (name : CollectionName) (id : DocId) : Prop :=
  ∀ sh ∈ s.shards, (dsGet sh.store name id).status = Status.ERROR

/-- At most one shard holds any id of collection `name` (the intended
shard-disjointness invariant). -/
def pairwiseOwner (s : MgrState) (name : CollectionName) : Prop :=
  ∀ (id : DocId) (i j : Nat) (shi shj : Shard), i ≠ j →
    s.shards.get? i = some shi → s.shards.get? j = some shj →
    (dsGet shi.store name id).status = Status.OK →
    (dsGet shj.store name id).status = Status.ERROR

theorem status_not_ok (st : Status) (h : ¬ st = Status.OK) : st = Status.ERROR := by
  cases st
  · exact absurd rfl h
  · rfl

theorem dsGet_dsDelete_self (ds : DSData) (name : CollectionName) (id : DocId)
    (hnd : keysNodupAt ds name) :
    (dsGet (dsDelete ds name id).2 name id).status = Status.ERROR := by
  unfold dsDelete
  cases hds : alistGet ds name with
  | none => simp [dsGet, hds]
  | some st =>
      cases hmap : alistGet st.map id with
      | none =>
          simp only [alistHas, hmap, Option.isSome_none, Bool.false_eq_true, if_false]
          simp [dsGet, hds, hmap]
      | some doc =>
          simp only [alistHas, hmap, Option.isSome_some, if_true]
          simp only [dsGet, alistGet_alistSet_self]
          rw [alistGet_alistRemove_self_of_nodup st.map id (hnd st hds)]

theorem dsGet_dsDelete_mono (ds : DSData) (name : CollectionName) (id : DocId)
    (name' : CollectionName) (id' : DocId)
    (h : (dsGet (dsDelete ds name id).2 name' id').status = Status.OK) :
    (dsGet ds name' id').status = Status.OK := by
  unfold dsDelete at h
  cases hds : alistGet ds name with
  | none => rw [hds] at h; exact h
  | some st =>
      rw [hds] at h
      cases hmap : alistGet st.map id with
      | none =>
          simp only [alistHas, hmap, Option.isSome_none, Bool.false_eq_true, if_false] at h
          exact h
      | some doc0 =>
          simp only [alistHas, hmap, Option.isSome_some, if_true] at h
          by_cases hne : name = name'
          · subst hne
            simp only [dsGet, alistGet_alistSet_self] at h
            cases hrm : alistGet (alistRemove st.map id) id' with
            | none => simp [hrm] at h
            | some doc =>
                have hhas' : alistHas st.map id' = true :=
                  alistHas_alistRemove_imp st.map id id' (by simp [alistHas, hrm])
                simp only [alistHas, Option.isSome_iff_exists] at hhas'
                obtain ⟨doc', hdoc'⟩ := hhas'
                simp [dsGet, hds, hdoc']
          · simp only [dsGet, alistGet_alistSet_ne _ name name' _ hne] at h
            simp only [dsGet]
            exact h

theorem keysNodupAt_dsDelete (ds : DSData) (name : CollectionName) (id : DocId)
    (name' : CollectionName) (h : keysNodupAt ds name') :
    keysNodupAt (dsDelete ds name id).2 name' := by
  unfold dsDelete
  cases hds : alistGet ds name with
  | none => exact h
  | some st =>
      cases hmap : alistGet st.map id with
      | none =>
          simp only [alistHas, hmap, Option.isSome_none, Bool.false_eq_true, if_false]
          exact h
      | some doc =>
          simp only [alistHas, hmap, Option.isSome_some, if_true]
          intro st' hst'
          by_cases hne : name = name'
          · subst hne
            rw [alistGet_alistSet_self] at hst'
            have he : st' = { st with map := alistRemove st.map id, size := st.size - 1 } :=
              (Option.some_inj.mp hst').symm
            subst he
            exact nodup_keys_alistRemove st.map id (h st hds)
          · rw [alistGet_alistSet_ne _ name name' _ hne] at hst'
            exact h st' hst' 

theorem sum_sizes_set (l : List Shard) (i : Nat) (sh x : Shard)
    (h : l.get? i = some sh) :
    ((l.set i x).map Shard.size).sum = ((l.map Shard.size).sum - sh.size) + x.size := by
  induction l generalizing i with
  | nil => simp at h
  | cons hd tl ih =>
      cases i with
      | zero =>
          simp only [List.get?_cons_zero, Option.some_inj] at h
          subst h
          simp only [List.set, List.map_cons, List.sum_cons]
          ring
      | succ n =>
          simp only [List.get?_cons_succ] at h
          simp only [List.set, List.map_cons, List.sum_cons, ih n h]
          ring

/-- Every shard's map for collection `name` has duplicate-free keys. -/
def mgrKeysNodup (s : MgrState) (name : CollectionName) : Prop :=
  ∀ sh ∈ s.shards, keysNodupAt sh.store name

theorem dsGet_ok_iff (ds : DSData) (name : CollectionName) (id : DocId) :
    (dsGet ds name id).status = Status.OK ↔
      ∃ st doc, alistGet ds name = some st ∧ alistGet st.map id = some doc := by
  unfold dsGet
  cases hds : alistGet ds name with
  | none => simp
  | some st =>
      cases hmap : alistGet st.map id with
      | none => simp [hmap]
      | some doc => simp [hmap]

theorem dsDelete_ok_of_dsGet_ok (ds : DSData) (name : CollectionName) (id : DocId)
    (h : (dsGet ds name id).status = Status.OK) :
    (dsDelete ds name id).1.status = Status.OK := by
  rcases (dsGet_ok_iff ds name id).mp h with ⟨st, doc, hds, hmap⟩
  unfold dsDelete
  rw [hds]
  simp [alistHas, hmap]

theorem dmLoop_lru (name : CollectionName) (ids : List DocId) :
    ∀ s : MgrState, (mgrDeleteManyLoop name ids s).2.lru = s.lru := by
  induction ids with
  | nil => intro s; rfl
  | cons id rest ih =>
      intro s
      simp only [mgrDeleteManyLoop]
      split
      · exact ih s
      · split
        · exact ih s
        · split
          · exact ih _
          · exact ih _

theorem dmLoop_size (name : CollectionName) (ids : List DocId) :
    ∀ s : MgrState,
      mgrSize (mgrDeleteManyLoop name ids s).2 +
        ((mgrDeleteManyLoop name ids s).1.length : Int) = mgrSize s := by
  induction ids with
  | nil => intro s; simp [mgrDeleteManyLoop]
  | cons id rest ih =>
      intro s
      simp only [mgrDeleteManyLoop]
      split
      · exact ih s
      · rename_i i heqf
        split
        · exact ih s
        · rename_i sh heqg
          split
          · rename_i hst
            rcases hpair : mgrDeleteManyLoop name rest
                { s with
                  shards := s.shards.set i
                    { store := (dsDelete sh.store name id).2, size := sh.size - 1 } }
              with ⟨acc, s2⟩
            have h1 := ih
              { s with
                shards := s.shards.set i
                  { store := (dsDelete sh.store name id).2, size := sh.size - 1 } }
            rw [hpair] at h1
            have h2 : mgrSize
                { s with
                  shards := s.shards.set i
                    { store := (dsDelete sh.store name id).2, size := sh.size - 1 } } =
                mgrSize s - 1 := by
              show ((s.shards.set i _).map Shard.size).sum = _
              rw [sum_sizes_set s.shards i sh _ heqg]
              show mgrSize s - sh.size + (sh.size - 1) = mgrSize s - 1
              ring
            rw [h2] at h1
            simp only [hpair, List.length_cons]
            push_cast
            linarith
          · rename_i hst
            rcases hpair : mgrDeleteManyLoop name rest
                { s with
                  shards := s.shards.set i { sh with store := (dsDelete sh.store name id).2 } }
              with ⟨acc, s2⟩
            have h1 := ih
              { s with
                shards := s.shards.set i { sh with store := (dsDelete sh.store name id).2 } }
            rw [hpair] at h1
            have h2 : mgrSize
                { s with
                  shards := s.shards.set i { sh with store := (dsDelete sh.store name id).2 } } =
                mgrSize s := by
              show ((s.shards.set i _).map Shard.size).sum = _
              rw [sum_sizes_set s.shards i sh _ heqg]
              show mgrSize s - sh.size + sh.size = mgrSize s
              ring
            rw [h2] at h1
            simp only [hpair]
            exact h1

theorem absent_set_delete (idd : DocId) (s : MgrState) (name : CollectionName)
    (i : Nat) (sh x : Shard) (heqg : s.shards.get? i = some sh)
    (hx : x.store = (dsDelete sh.store name idd).2)
    (id₀ : DocId) (h : absentEverywhere s name id₀) :
    absentEverywhere { s with shards := s.shards.set i x } name id₀ := by
  intro sh' hsh'
  rcases List.mem_or_eq_of_mem_set hsh' with hmem | hxeq
  · exact h sh' hmem
  · subst hxeq
    rw [hx]
    apply status_not_ok
    intro hok
    have hold := dsGet_dsDelete_mono sh.store name idd name id₀ hok
    have hshmem : sh ∈ s.shards := List.get?_mem heqg
    have := h sh hshmem
    rw [this] at hold
    exact absurd hold (by decide)

theorem dmLoop_absent (name : CollectionName) (ids : List DocId) :
    ∀ s id₀, absentEverywhere s name id₀ →
      absentEverywhere (mgrDeleteManyLoop name ids s).2 name id₀ := by
  induction ids with
  | nil => intro s id₀ h; exact h
  | cons id rest ih =>
      intro s id₀ h
      simp only [mgrDeleteManyLoop]
      split
      · exact ih s id₀ h
      · rename_i i heqf
        split
        · exact ih s id₀ h
        · rename_i sh heqg
          split
          · rename_i hst
            rcases hpair : mgrDeleteManyLoop name rest
                { s with
                  shards := s.shards.set i
                    { store := (dsDelete sh.store name id).2, size := sh.size - 1 } }
              with ⟨acc, s2⟩
            have habs := absent_set_delete id s name i sh
              { store := (dsDelete sh.store name id).2, size := sh.size - 1 } heqg rfl id₀ h
            have := ih _ id₀ habs
            rw [hpair] at this
            exact this
          · rename_i hst
            have habs := absent_set_delete id s name i sh
              { sh with store := (dsDelete sh.store name id).2 } heqg rfl id₀ h
            exact ih _ id₀ habs

theorem mgrKeysNodup_set_delete (idd : DocId) (s : MgrState) (name : CollectionName)
    (i : Nat) (sh x : Shard) (heqg : s.shards.get? i = some sh)
    (hx : x.store = (dsDelete sh.store name idd).2)
    (h : mgrKeysNodup s name) :
    mgrKeysNodup { s with shards := s.shards.set i x } name := by
  intro sh' hsh'
  rcases List.mem_or_eq_of_mem_set hsh' with hmem | hxeq
  · exact h sh' hmem
  · subst hxeq
    rw [hx]
    exact keysNodupAt_dsDelete sh.store name idd name (h sh (List.get?_mem heqg))

theorem pairwiseOwner_set_delete (idd : DocId) (s : MgrState) (name : CollectionName)
    (i : Nat) (sh x : Shard) (heqg : s.shards.get? i = some sh)
    (hx : x.store = (dsDelete sh.store name idd).2)
    (h : pairwiseOwner s name) :
    pairwiseOwner { s with shards := s.shards.set i x } name := by
  intro id' a b sha shb hab ha hb hok
  simp only at ha hb
  have hlt : i < s.shards.length := by
    by_contra hge
    rw [List.get?_eq_none.mpr (by omega : s.shards.length ≤ i)] at heqg
    exact Option.noConfusion heqg
  by_cases hai : a = i
  · rw [hai] at ha
    rw [List.get?_set_eq_of_lt x hlt] at ha
    have hsha : sha = x := (Option.some_inj.mp ha).symm
    rw [hsha, hx] at hok
    have hok' := dsGet_dsDelete_mono sh.store name idd name id' hok
    by_cases hbi : b = i
    · exact absurd (hai.trans hbi.symm) hab
    · rw [List.get?_set_ne x s.shards (fun he => hbi he.symm)] at hb
      exact h id' i b sh shb (fun he => hbi he.symm) heqg hb hok'
  · rw [List.get?_set_ne x s.shards (fun he => hai he.symm)] at ha
    by_cases hbi : b = i
    · rw [hbi] at hb
      rw [List.get?_set_eq_of_lt x hlt] at hb
      have hshb : shb = x := (Option.some_inj.mp hb).symm
      rw [hshb, hx]
      apply status_not_ok
      intro hok2
      have hok2' := dsGet_dsDelete_mono sh.store name idd name id' hok2
      have herr := h id' a i sha sh (fun he => hai he) ha heqg hok
      rw [herr] at hok2'
      exact absurd hok2' (by decide)
    · rw [List.get?_set_ne x s.shards (fun he => hbi he.symm)] at hb
      exact h id' a b sha shb hab ha hb hok

theorem owner_at_found (s : MgrState) (name : CollectionName) (id : DocId)
    (i : Nat) (sh : Shard) (heqf : findShardIdx s name id = some i)
    (heqg : s.shards.get? i = some sh) :
    (dsGet sh.store name id).status = Status.OK := by
  unfold findShardIdx at heqf
  rcases List.findIdx?_eq_some_iff_getElem.mp heqf with ⟨hlt, hp, _⟩
  have : s.shards[i] = sh := by
    have h1 : s.shards[i]? = some sh := by
      rw [← List.get?_eq_getElem?]
      exact heqg
    rw [List.getElem?_eq_getElem hlt] at h1
    exact Option.some_inj.mp h1
  rw [this] at hp
  exact of_decide_eq_true hp

theorem absent_after_delete_owner (s : MgrState) (name : CollectionName)
    (id : DocId) (i : Nat) (sh : Shard) (heqg : s.shards.get? i = some sh)
    (howner : (dsGet sh.store name id).status = Status.OK)
    (hpw : pairwiseOwner s name) (hnd : mgrKeysNodup s name) (x : Shard)
    (hx : x.store = (dsDelete sh.store name id).2) :
    absentEverywhere { s with shards := s.shards.set i x } name id := by
  intro sh' hsh'
  rcases List.mem_iff_get.mp hsh' with ⟨n, he⟩
  have hjget : (s.shards.set i x).get? n.val = some sh' := by
    rw [List.get?_eq_get n.isLt]
    exact congrArg some he
  by_cases hji : n.val = i
  · rw [hji] at hjget
    have hlen : i < s.shards.length := by
      have h2 : n.val < (s.shards.set i x).length := n.isLt
      have h3 : (n : Nat) < s.shards.length := by simpa using h2
      omega
    rw [List.get?_set_eq_of_lt x hlen] at hjget
    have hx' : sh' = x := (Option.some_inj.mp hjget).symm
    subst hx'
    rw [hx]
    exact dsGet_dsDelete_self sh.store name id (hnd sh (List.get?_mem heqg))
  · rw [List.get?_set_ne x s.shards (fun he₂ => hji he₂.symm)] at hjget
    exact hpw id i n.val sh sh' (fun he₂ => hji he₂.symm) heqg hjget howner

theorem dmLoop_removes (name : CollectionName) (ids : List DocId) :
    ∀ s, pairwiseOwner s name → mgrKeysNodup s name →
      ∀ id₀ ∈ ids, absentEverywhere (mgrDeleteManyLoop name ids s).2 name id₀ := by
  induction ids with
  | nil => intro s _ _ id₀ h; exact absurd h (List.not_mem_nil id₀)
  | cons id rest ih =>
      intro s hpw hnd id₀ hmem
      simp only [mgrDeleteManyLoop]
      split
      · rename_i heqf
        rcases List.mem_cons.mp hmem with rfl | hmem'
        · have habs : absentEverywhere s name id₀ := by
            intro sh hsh
            apply status_not_ok
            intro hok
            have := (List.findIdx?_eq_none_iff.mp heqf) sh hsh
            rw [hok] at this
            exact absurd this (by decide)
          exact dmLoop_absent name rest s id₀ habs
        · exact ih s hpw hnd id₀ hmem'
      · rename_i i heqf
        split
        · rename_i heqg
          exfalso
          unfold findShardIdx at heqf
          rcases List.findIdx?_eq_some_iff_getElem.mp heqf with ⟨hlt, _, _⟩
          rw [List.get?_eq_getElem?, List.getElem?_eq_getElem hlt] at heqg
          exact Option.noConfusion heqg
        · rename_i sh heqg
          have howner := owner_at_found s name id i sh heqf heqg
          split
          · rename_i hst
            rcases hpair : mgrDeleteManyLoop name rest
                { s with
                  shards := s.shards.set i
                    { store := (dsDelete sh.store name id).2, size := sh.size - 1 } }
              with ⟨acc, s2⟩
            have hpw' := pairwiseOwner_set_delete id s name i sh
              { store := (dsDelete sh.store name id).2, size := sh.size - 1 } heqg rfl hpw
            have hnd' := mgrKeysNodup_set_delete id s name i sh
              { store := (dsDelete sh.store name id).2, size := sh.size - 1 } heqg rfl hnd
            rcases List.mem_cons.mp hmem with rfl | hmem'
            · have habs1 := absent_after_delete_owner s name id₀ i sh heqg howner hpw hnd
                { store := (dsDelete sh.store name id₀).2, size := sh.size - 1 } rfl
              have := dmLoop_absent name rest _ id₀ habs1
              rw [hpair] at this
              exact this
            · have := ih _ hpw' hnd' id₀ hmem'
              rw [hpair] at this
              exact this
          · rename_i hst
            exfalso
            have := dsDelete_ok_of_dsGet_ok sh.store name id howner
            rw [hst] at this
            exact absurd this (by decide)

theorem mgrDelete_lru (s : MgrState) (name : CollectionName) (id : DocId) :
    (mgrDelete s name id).1.status = Status.OK →
      (mgrDelete s name id).2.lru = alistRemove s.lru (lruKey name id) := by
  unfold mgrDelete
  split
  · intro h; simp at h
  · split
    · intro h; simp at h
    · split
      · split
        · intro _; rfl
        · rename_i hst
          intro h
          simp [hst] at h

theorem pairwiseOwner_of_single_shard (s : MgrState) (name : CollectionName)
    (h : s.shards.length ≤ 1) : pairwiseOwner s name := by
  intro id i j shi shj hij hi hj _
  exfalso
  have hi' : i < s.shards.length := by
    by_contra hge
    rw [List.get?_eq_none.mpr (by omega : s.shards.length ≤ i)] at hi
    exact Option.noConfusion hi
  have hj' : j < s.shards.length := by
    by_contra hge
    rw [List.get?_eq_none.mpr (by omega : s.shards.length ≤ j)] at hj
    exact Option.noConfusion hj
  omega

/-- C10 — a successful `deleteMany(collection, ids)` removes the listed
documents from their shards (given the intended invariants that each id
lives in at most one shard and the shard maps are duplicate-free) and
decrements the shard size counters — the total shard size drops by one per
reported deletion — but leaves the whole recency (LRU) index untouched,
unlike single `delete`, which on success removes its `"name:id"` key from
the recency index. -/
theorem deleteMany_keeps_lru_unlike_delete (s : MgrState)
    (name : CollectionName) (ids : List DocId) (id : DocId) :
    ((mgrDeleteMany s name ids).2.lru = s.lru) ∧
    ((mgrDeleteMany s name ids).1.status = Status.OK) ∧
    (mgrSize (mgrDeleteMany s name ids).2 +
      (((mgrDeleteMany s name ids).1.data.getD []).length : Int) = mgrSize s) ∧
    (pairwiseOwner s name → mgrKeysNodup s name →
      ∀ id₀ ∈ ids, absentEverywhere (mgrDeleteMany s name ids).2 name id₀) ∧
    ((mgrDelete s name id).1.status = Status.OK →
      (mgrDelete s name id).2.lru = alistRemove s.lru (lruKey name id)) := by
  refine ⟨dmLoop_lru name ids s, rfl, dmLoop_size name ids s, ?_, mgrDelete_lru s name id⟩
  intro hpw hnd id₀ hmem
  exact dmLoop_removes name ids s hpw hnd id₀ hmem

/-- A two-document state for the `deleteMany` witness: two `set`s on a
fresh engine. -/
def dmw1 := mgrSet capTwo (initState ["c"]) "c" (.vNum 300)
def dmw2 := mgrSet capTwo dmw1.2 "c" (.vNum 301)

/-- The collection state the two `set`s produce. -/
def dmwState : CollectionState :=
  { map := [(0, Val.vNum 300), (1, Val.vNum 301)], nextId := 2, size := 2 }

/-- The single shard of `dmw2.2`. -/
def dmwShard : Shard := { store := [("c", dmwState)], size := 2 }

/-- Witness for `deleteMany_keeps_lru_unlike_delete` at the two-document
state: the invariants hold (one shard, duplicate-free keys), `delete 0`
succeeds, `deleteMany [0, 1]` leaves the LRU index unchanged while both
documents become absent, and `delete 0` removes its LRU key. -/
theorem deleteMany_keeps_lru_unlike_delete_witness :
    pairwiseOwner dmw2.2 "c" ∧ mgrKeysNodup dmw2.2 "c" ∧
    (mgrDelete dmw2.2 "c" 0).1.status = Status.OK ∧
    (mgrDeleteMany dmw2.2 "c" [0, 1]).2.lru = dmw2.2.lru ∧
    (∀ id₀ ∈ [0, 1], absentEverywhere (mgrDeleteMany dmw2.2 "c" [0, 1]).2 "c" id₀) ∧
    (mgrDelete dmw2.2 "c" 0).2.lru = alistRemove dmw2.2.lru (lruKey "c" 0) := by
  have hpw : pairwiseOwner dmw2.2 "c" :=
    pairwiseOwner_of_single_shard dmw2.2 "c" (by rfl)
  have hnd : mgrKeysNodup dmw2.2 "c" := by
    intro sh hsh st hst
    have hsh' : sh ∈ [dmwShard] := hsh
    have he : sh = dmwShard := List.mem_singleton.mp hsh'
    rw [he] at hst
    have hst' : st = dmwState := (Option.some_inj.mp hst).symm
    rw [hst']
    decide
  have hok : (mgrDelete dmw2.2 "c" 0).1.status = Status.OK := rfl
  have hthm := deleteMany_keeps_lru_unlike_delete dmw2.2 "c" [0, 1] 0
  exact ⟨hpw, hnd, hok, hthm.1, hthm.2.2.2.1 hpw hnd, hthm.2.2.2.2 hok⟩

/-! ## Predicate evaluation: declarative semantics (for C8)

`SpecStep`/`SpecStepList` state what the claim's evaluation rules mean
for one operator, with the truthiness caveat the source imposes: an
operator applies only when present with a truthy operand (array operands,
even empty, are always truthy), and an applied operator's check must
pass.  `SpecCore`/`SpecOps` conjoin them; `not` requires the inner
operator set to fail. -/

def SpecStep (o : Option Val) (check : Val → Bool) : Prop :=
  ∀ v, o = some v → truthy v = true → check v = true

def SpecStepList (o : Option (List Val)) (check : List Val → Bool) : Prop :=
  ∀ l, o = some l → check l = true

def SpecCore (value : Val) (ops : QueryOperators) : Prop :=
  SpecStep ops.eq (fun v => jsEq value v) ∧
  SpecStep ops.gt (fun v => jsGt value v) ∧
  SpecStep ops.lt (fun v => jsLt value v) ∧
  SpecStep ops.gte (fun v => jsGe value v) ∧
  SpecStep ops.lte (fun v => jsLe value v) ∧
  SpecStepList ops.inList (fun l => jsIncludes l value) ∧
  SpecStepList ops.nin (fun l => !jsIncludes l value) ∧
  SpecStep ops.contains (fun v => containsCheck value v) ∧
  SpecStepList ops.overlap (fun l => overlapCheck value l)

def SpecOps (value : Val) (ops : QueryOperatorsWithNot) : Prop :=
  SpecCore value ops.toQueryOperators ∧
  ∀ n, ops.notOp = some n → ¬ SpecCore value n

theorem opStep_eq_true_iff (ok : Bool) (o : Option Val) (check : Val → Bool) :
    opStep ok o check = true ↔ (ok = true ∧ SpecStep o check) := by
  cases o with
  | none => simp [opStep, SpecStep]
  | some v =>
      by_cases ht : truthy v = true
      · simp only [opStep, if_pos ht, Bool.and_eq_true, SpecStep]
        constructor
        · rintro ⟨h1, h2⟩
          refine ⟨h1, ?_⟩
          intro v' hv' _
          have hvv : v = v' := Option.some_inj.mp hv'
          rw [← hvv]
          exact h2
        · rintro ⟨h1, h2⟩
          exact ⟨h1, h2 v rfl ht⟩
      · simp only [opStep, if_neg ht, SpecStep]
        constructor
        · intro h
          refine ⟨h, ?_⟩
          intro v' hv' htv'
          have hvv : v = v' := Option.some_inj.mp hv'
          rw [← hvv] at htv'
          exact absurd htv' ht
        · intro h
          exact h.1

theorem opStepList_eq_true_iff (ok : Bool) (o : Option (List Val)) (check : List Val → Bool) :
    opStepList ok o check = true ↔ (ok = true ∧ SpecStepList o check) := by
  cases o with
  | none => simp [opStepList, SpecStepList]
  | some l =>
      simp only [opStepList, SpecStepList, Bool.and_eq_true]
      constructor
      · rintro ⟨h1, h2⟩
        refine ⟨h1, ?_⟩
        intro l' hl'
        have hll : l = l' := Option.some_inj.mp hl'
        rw [← hll]
        exact h2
      · rintro ⟨h1, h2⟩
        exact ⟨h1, h2 l rfl⟩

theorem evalCore_eq_true_iff (value : Val) (ops : QueryOperators) :
    evalCore value ops = true ↔ SpecCore value ops := by
  unfold evalCore SpecCore
  simp only [opStep_eq_true_iff, opStepList_eq_true_iff]
  tauto

theorem evalOps_eq_true_iff (value : Val) (ops : QueryOperatorsWithNot) :
    evalOps value ops = true ↔ SpecOps value ops := by
  unfold evalOps SpecOps
  cases hn : ops.notOp with
  | none =>
      simp only [evalCore_eq_true_iff]
      constructor
      · intro h
        exact ⟨h, fun n hcontra => Option.noConfusion hcontra⟩
      · intro h
        exact h.1
  | some n =>
      simp only [Bool.and_eq_true, Bool.not_eq_true', evalCore_eq_true_iff]
      constructor
      · rintro ⟨h1, h2⟩
        refine ⟨h1, ?_⟩
        intro n' hn' hspec
        have hnn : n = n' := Option.some_inj.mp hn'
        rw [← hnn] at hspec
        rw [← evalCore_eq_true_iff] at hspec
        rw [h2] at hspec
        exact Bool.false_ne_true hspec
      · rintro ⟨h1, h2⟩
        refine ⟨h1, ?_⟩
        have hne := h2 n rfl
        rw [← evalCore_eq_true_iff] at hne
        cases hb : evalCore value n
        · rfl
        · exact absurd hb hne

theorem matchesAll_iff (doc : Val) (subs : List WhereQuery) :
    matchesAll doc subs = true ↔ ∀ w ∈ subs, matchesWhere doc w = true := by
  induction subs with
  | nil => simp [matchesAll]
  | cons w rest ih =>
      simp only [matchesAll, Bool.and_eq_true, ih, List.mem_cons]
      constructor
      · rintro ⟨h1, h2⟩ w' hw'
        rcases hw' with rfl | hw'
        · exact h1
        · exact h2 w' hw'
      · intro h
        exact ⟨h w (Or.inl rfl), fun w' hw' => h w' (Or.inr hw')⟩

theorem matchesAny_iff (doc : Val) (subs : List WhereQuery) :
    matchesAny doc subs = true ↔ ∃ w ∈ subs, matchesWhere doc w = true := by
  induction subs with
  | nil => simp [matchesAny]
  | cons w rest ih =>
      simp only [matchesAny, Bool.or_eq_true, ih, List.mem_cons]
      constructor
      · rintro (h1 | ⟨w', hw', h2⟩)
        · exact ⟨w, Or.inl rfl, h1⟩
        · exact ⟨w', Or.inr hw', h2⟩
      · rintro ⟨w', rfl | hw', h2⟩
        · exact Or.inl h2
        · exact Or.inr ⟨w', hw', h2⟩

/-- The entries of collection `name` in a store, as `find` iterates them. -/
def entriesOf (ds : DSData) (name : CollectionName) : List (DocId × Val) :=
  match alistGet ds name with
  | some st => st.map
  | none => []

theorem mgrFindLoop_fst (catalog : List CollectionName) (name : CollectionName)
    (w : WhereQuery) : ∀ shards : List Shard,
    (mgrFindLoop catalog name w shards).1 =
      if catalog.contains name = true then
        shards.bind (fun sh => (entriesOf sh.store name).filter (fun e => matchesWhere e.2 w))
      else [] := by
  intro shards
  induction shards with
  | nil => by_cases hc : catalog.contains name = true <;> simp [mgrFindLoop, hc]
  | cons sh rest ih =>
      simp only [mgrFindLoop]
      by_cases hc : catalog.contains name = true
      · have hm : name ∈ catalog := by simpa using hc
        cases hg : alistGet sh.store name with
        | some st => simp [dsGetAll, dsEnsureState, hg, entriesOf, ih, hc, hm]
        | none => simp [dsGetAll, dsEnsureState, hg, entriesOf, ih, hc, hm]
      · have hm : name ∉ catalog := by simpa using hc
        simp [dsGetAll, hc, hm, ih]

theorem mgrFind_mem_iff (s : MgrState) (name : CollectionName) (w : WhereQuery)
    (id₀ : DocId) (doc : Val) :
    ((id₀, doc) ∈ ((mgrFind s name w).1.data.getD [])) ↔
      (s.catalog.contains name = true ∧
        ∃ sh ∈ s.shards, (id₀, doc) ∈ entriesOf sh.store name ∧
          matchesWhere doc w = true) := by
  have hr : (mgrFind s name w).1.data.getD ([]) =
      (mgrFindLoop s.catalog name w s.shards).1 := rfl
  rw [hr, mgrFindLoop_fst]
  by_cases hc : s.catalog.contains name = true
  · simp only [hc, if_true, List.mem_bind, List.mem_filter, true_and]
  · simp [hc]


theorem alistGet_isSome_of_mem {α β : Type} [DecidableEq α]
    (m : List (α × β)) (k : α) (v : β) (h : (k, v) ∈ m) :
    (alistGet m k).isSome = true := by
  induction m with
  | nil => simp at h
  | cons hd tl ih =>
      obtain ⟨k2, v2⟩ := hd
      rcases List.mem_cons.mp h with he | hmem
      · have hkk : k2 = k := ((Prod.mk.injEq k v k2 v2).mp he).1.symm
        simp [alistGet, hkk]
      · by_cases hk : k2 = k
        · simp [alistGet, hk]
        · simp only [alistGet, if_neg hk]
          exact ih hmem

/-- The store holding this document for `find` purposes: an entry in the
collection's map of some shard. -/
def c8s := mgrSet capTwo (initState ["c"]) "c" (.vObj [("age", .vNum 5)])

/-- `{field: "age", op: {eq: 0}}`. -/
def c8w : WhereQuery := .cond "age" { eq := some (.vNum 0) }

/-- C8 (counterexample) — the claim reads `eq` as comparing the named
field against the operand, but the evaluator guards every scalar operator
with JavaScript truthiness (`if (ops.eq)`), so a falsy operand — here the
number 0 — is skipped entirely: `find` on `{eq: 0}` over `age` returns the
stored document whose `age` is 5, although `5 === 0` is false. -/
theorem find_falsy_eq_counterexample :
    ((mgrFind c8s.2 "c" c8w).1.data.getD []) = [(0, .vObj [("age", .vNum 5)])] ∧
    c8w = .cond "age" { eq := some (.vNum 0) } ∧
    jsEq (getField (.vObj [("age", .vNum 5)]) "age") (.vNum 0) = false :=
  ⟨rfl, rfl, rfl⟩

/-- C8 (amended) — `find(collection, w)` returns exactly the stored
`(id, doc)` entries (across every shard, for a collection known to the
catalog) whose document satisfies `w`, where an `AND` holds iff all its
clauses hold, an `OR` iff some clause holds, and a condition holds iff
every **applicable** operator passes: an operator applies only when its
operand is present and truthy (arrays are always truthy, so falsy scalar
operands such as `0`, `""` or `false` are skipped); applied `eq`/`gt`/
`lt`/`gte`/`lte` compare the field, `contains` is substring on strings
and membership on lists, `overlap` is non-empty intersection on lists,
and `not` requires the inner applicable operators to fail.  Documents
absent from every shard — in particular deleted ones — are never
returned. -/
theorem find_returns_matching_stored (s : MgrState) (name : CollectionName)
    (w : WhereQuery) (id₀ : DocId) (doc v : Val) (subs : List WhereQuery)
    (f : String) (op : QueryOperatorsWithNot) :
    (((id₀, doc) ∈ ((mgrFind s name w).1.data.getD [])) ↔
      (s.catalog.contains name = true ∧
        ∃ sh ∈ s.shards, (id₀, doc) ∈ entriesOf sh.store name ∧
          matchesWhere doc w = true)) ∧
    (matchesWhere v (.and subs) = true ↔ ∀ w₂ ∈ subs, matchesWhere v w₂ = true) ∧
    (matchesWhere v (.or subs) = true ↔ ∃ w₂ ∈ subs, matchesWhere v w₂ = true) ∧
    (matchesWhere v (.cond f op) = true ↔ SpecOps (getField v f) op) ∧
    (absentEverywhere s name id₀ →
      ∀ d, (id₀, d) ∉ ((mgrFind s name w).1.data.getD [])) := by
  refine ⟨mgrFind_mem_iff s name w id₀ doc, matchesAll_iff v subs,
    matchesAny_iff v subs, evalOps_eq_true_iff (getField v f) op, ?_⟩
  intro habs d hmem
  rcases (mgrFind_mem_iff s name w id₀ d).mp hmem with ⟨hc, sh, hsh, hentry, _⟩
  have herr := habs sh hsh
  unfold entriesOf at hentry
  cases hg : alistGet sh.store name with
  | none => rw [hg] at hentry; simp at hentry
  | some st =>
      rw [hg] at hentry
      have hsome := alistGet_isSome_of_mem st.map id₀ d hentry
      rcases Option.isSome_iff_exists.mp hsome with ⟨d2, hd2⟩
      have hok : (dsGet sh.store name id₀).status = Status.OK :=
        (dsGet_ok_iff sh.store name id₀).mpr ⟨st, d2, hg, hd2⟩
      rw [herr] at hok
      exact absurd hok (by decide)

/-- Witness for `find_returns_matching_stored`: on a fresh (empty) engine
nothing is stored, so `find` returns no entry for id 0. -/
theorem find_returns_matching_stored_witness :
    absentEverywhere (initState ["c"]) "c" 0 ∧
    ∀ d, (0, d) ∉ ((mgrFind (initState ["c"]) "c" (.and [])).1.data.getD []) := by
  have habs : absentEverywhere (initState ["c"]) "c" 0 := by
    intro sh hsh
    have he : sh = { store := [], size := 0 } := List.mem_singleton.mp hsh
    rw [he]
    rfl
  exact ⟨habs,
    (find_returns_matching_stored (initState ["c"]) "c" (.and []) 0 (.vNull) (.vNull)
      [] "" {}).2.2.2.2 habs⟩


/-- The consecutive-key write sequence performed by `dsAllocLoop`. -/
def writeSeq (m : List (DocId × Val)) (k : Nat) : List Val → List (DocId × Val)
  | [] => m
  | d :: rest => writeSeq (alistSet m k d) (k + 1) rest

theorem dsAllocLoop_spec : ∀ (docs : List Val) (st : CollectionState),
    dsAllocLoop st docs =
      ({ map := writeSeq st.map st.nextId docs, nextId := st.nextId + docs.length,
         size := st.size }, List.range' st.nextId docs.length) := by
  intro docs
  induction docs with
  | nil => intro st; simp [dsAllocLoop, writeSeq, List.range']
  | cons d rest ih =>
      intro st
      simp only [dsAllocLoop, ih, writeSeq, List.length_cons, List.range']
      have he : st.nextId + 1 + rest.length = st.nextId + (rest.length + 1) := by
        rw [Nat.add_assoc, Nat.add_comm 1]
      rw [he]

theorem writeSeq_lookup_lt : ∀ (docs : List Val) (m : List (DocId × Val)) (k j : Nat),
    j < k → alistGet (writeSeq m k docs) j = alistGet m j := by
  intro docs
  induction docs with
  | nil => intro m k j h; rfl
  | cons d rest ih =>
      intro m k j h
      simp only [writeSeq]
      rw [ih (alistSet m k d) (k + 1) j (by omega)]
      exact alistGet_alistSet_ne m k j d (Nat.ne_of_gt h)

theorem writeSeq_lookup_zip : ∀ (docs : List Val) (m : List (DocId × Val)) (k : Nat)
    (p : DocId × Val), p ∈ (List.range' k docs.length).zip docs →
    alistGet (writeSeq m k docs) p.1 = some p.2 := by
  intro docs
  induction docs with
  | nil => intro m k p h; simp at h
  | cons d rest ih =>
      intro m k p h
      simp only [List.length_cons, List.range', List.zip_cons_cons, List.mem_cons] at h
      rcases h with rfl | h
      · simp only [writeSeq]
        rw [writeSeq_lookup_lt rest (alistSet m k d) (k + 1) k (by omega)]
        exact alistGet_alistSet_self m k d
      · simp only [writeSeq]
        exact ih (alistSet m k d) (k + 1) p h

theorem alistGet_mem {α β : Type} [DecidableEq α]
    (m : List (α × β)) (k : α) (v : β) (h : alistGet m k = some v) : (k, v) ∈ m := by
  induction m with
  | nil => simp [alistGet] at h
  | cons hd tl ih =>
      obtain ⟨k2, v2⟩ := hd
      by_cases hk : k2 = k
      · subst hk
        simp only [alistGet_cons, if_pos rfl] at h
        have : v2 = v := Option.some_inj.mp h
        subst this
        exact List.mem_cons_self _ _
      · simp only [alistGet_cons, if_neg hk] at h
        exact List.mem_cons_of_mem _ (ih h)

theorem dsSetMany_ok (catalog : List CollectionName) (ds : DSData)
    (name : CollectionName) (docs : List Val) (hc : catalog.contains name = true) :
    dsSetMany catalog ds name docs =
      ({ status := .OK, data := some (List.range' (dsEnsureState ds name).1.nextId docs.length) },
       alistSet (dsEnsureState ds name).2 name
         { map := writeSeq (dsEnsureState ds name).1.map (dsEnsureState ds name).1.nextId docs
           nextId := (dsEnsureState ds name).1.nextId + docs.length
           size := (dsEnsureState ds name).1.size + docs.length },
       docs) := by
  unfold dsSetMany
  rw [if_pos hc]
  rcases he : dsEnsureState ds name with ⟨st, ds2⟩
  simp only [he, dsAllocLoop_spec]

/-- The document the engine would serve for `(name, id)`: the entry of the
first store (in shard order) holding the id. -/
def findDocIn : List DSData → CollectionName → DocId → Option Val
  | [], _, _ => none
  | ds :: rest, name, id =>
      match (dsGet ds name id).data with
      | some p => some p.2
      | none => findDocIn rest name id

/-- `lookupDoc` is `findIdInMap` followed by the shard-local `get`,
phrased over the shard stores only. -/
def lookupDoc (s : MgrState) (name : CollectionName) (id : DocId) : Option Val :=
  findDocIn (s.shards.map Shard.store) name id

theorem findDocIn_append_dead (l : List DSData) (d : DSData)
    (hdead : ∀ c i, (dsGet d c i).data = none) (name : CollectionName) (id : DocId) :
    findDocIn (l ++ [d]) name id = findDocIn l name id := by
  induction l with
  | nil => simp [findDocIn, hdead name id]
  | cons ds rest ih =>
      simp only [List.cons_append, findDocIn]
      cases hda : (dsGet ds name id).data with
      | some p => rfl
      | none => exact ih

theorem dead_of_empty_maps (ds : DSData) (h : ∀ p ∈ ds, p.2.map = [])
    (c : CollectionName) (i : DocId) : (dsGet ds c i).data = none := by
  have hnone : ∀ st, alistGet ds c = some st → alistGet st.map i = none := by
    intro st hg
    rw [h (c, st) (alistGet_mem ds c st hg)]
    rfl
  unfold dsGet
  cases hg : alistGet ds c with
  | none => rfl
  | some st =>
      show (match alistGet st.map i with
        | none => ({ status := Status.ERROR, data := none } : Resp (DocId × Val))
        | some doc => { status := Status.OK, data := some (i, doc) }).data = none
      rw [hnone st hg]

theorem lookupDoc_append_dead_shard (s : MgrState) (x : Shard)
    (hdead : ∀ c i, (dsGet x.store c i).data = none)
    (name : CollectionName) (id : DocId) :
    lookupDoc { s with shards := s.shards ++ [x] } name id = lookupDoc s name id := by
  unfold lookupDoc
  rw [show ({ s with shards := s.shards ++ [x] } : MgrState).shards = s.shards ++ [x] from rfl]
  rw [List.map_append, List.map_cons, List.map_nil]
  exact findDocIn_append_dead _ _ hdead name id

theorem lookupDoc_rotate (cfg : Config) (s : MgrState) (name : CollectionName)
    (id : DocId) : lookupDoc (mgrRotate cfg s) name id = lookupDoc s name id := by
  unfold mgrRotate
  cases hl : s.shards.getLast? with
  | none => rfl
  | some cur =>
      by_cases hcap : cur.size ≥ (cfg.capacity : Int)
      · simp only [if_pos hcap]
        apply lookupDoc_append_dead_shard
        intro c i
        apply dead_of_empty_maps
        intro p hp
        rcases List.mem_map.mp hp with ⟨c2, _, he⟩
        rw [← he]
      · simp [hcap]

theorem mapLastShard_map_store : ∀ (l : List Shard) (f : Shard → Shard),
    (∀ sh, l.getLast? = some sh → (f sh).store = sh.store) →
    (mapLastShard f l).map Shard.store = l.map Shard.store := by
  intro l
  induction l with
  | nil => intro f h; rfl
  | cons x tl ih =>
      intro f h
      cases tl with
      | nil =>
          simp only [mapLastShard, List.map_cons, List.map_nil]
          rw [h x rfl]
      | cons y rest =>
          simp only [mapLastShard, List.map_cons]
          rw [ih f (fun sh hsh => h sh (by rw [List.getLast?_cons_cons]; exact hsh))]
          simp

theorem getLast_cons_ne_nil {α : Type} (a : α) (l : List α) (h : l ≠ []) :
    (a :: l).getLast? = l.getLast? := by
  cases l with
  | nil => exact absurd rfl h
  | cons b t => exact List.getLast?_cons_cons

theorem mapLastShard_ne_nil (l : List Shard) (f : Shard → Shard) (h : l ≠ []) :
    mapLastShard f l ≠ [] := by
  cases l with
  | nil => exact absurd rfl h
  | cons x tl =>
      cases tl with
      | nil => simp [mapLastShard]
      | cons y rest => simp [mapLastShard]

theorem getLast_mapLastShard : ∀ (l : List Shard) (f : Shard → Shard),
    (mapLastShard f l).getLast? = l.getLast?.map f := by
  intro l
  induction l with
  | nil => intro f; rfl
  | cons x tl ih =>
      intro f
      cases tl with
      | nil => rfl
      | cons y rest =>
          simp only [mapLastShard]
          rw [getLast_cons_ne_nil x _ (mapLastShard_ne_nil (y :: rest) f (by simp))]
          rw [List.getLast?_cons_cons, ih f]

theorem mgrSetMany_eq (cfg : Config) (env : Env) (s : MgrState)
    (name : CollectionName) (docs : List Val) :
    mgrSetMany cfg env s name docs =
      (if canAllocateNat (env s.envIdx).rss (env s.envIdx).heapUsed
          cfg.maxRSSBytes cfg.maxHeapBytes (setManyEstimate docs) = true then
        mgrSetManyCommit cfg env { s with envIdx := s.envIdx + 1 } name docs
      else if docs.length > 10000 then
        mgrSetManyChunked cfg env { s with envIdx := s.envIdx + 1 } name docs
      else ({ status := .ERROR }, stopMonitoring { s with envIdx := s.envIdx + 1 })) := rfl

theorem mgrSetManyCore_eq (cfg : Config) (env : Env) (s : MgrState)
    (name : CollectionName) (docs : List Val) :
    mgrSetManyCore cfg env s name docs =
      (if canAllocateNat (env s.envIdx).rss (env s.envIdx).heapUsed
          cfg.maxRSSBytes cfg.maxHeapBytes (setManyEstimate docs) = true then
        mgrSetManyCommit cfg env { s with envIdx := s.envIdx + 1 } name docs
      else ({ status := .ERROR }, stopMonitoring { s with envIdx := s.envIdx + 1 })) := rfl

theorem mgrRotate_catalog (cfg : Config) (s : MgrState) :
    (mgrRotate cfg s).catalog = s.catalog := by
  unfold mgrRotate
  split
  · rfl
  · split
    · rfl
    · rfl

theorem mgrSetManyCommit_spec (cfg : Config) (env : Env) (s : MgrState)
    (name : CollectionName) (docs : List Val) :
    ((mgrSetManyCommit cfg env s name docs).1.status = Status.OK →
      ∃ ids sh, (mgrSetManyCommit cfg env s name docs).1.data = some ids ∧
        ids.length = docs.length ∧
        (mgrSetManyCommit cfg env s name docs).2.shards.getLast? = some sh ∧
        ∀ p ∈ ids.zip docs, (dsGet sh.store name p.1).data = some p) ∧
    ((mgrSetManyCommit cfg env s name docs).1.status = Status.ERROR →
      ∀ c i, lookupDoc (mgrSetManyCommit cfg env s name docs).2 c i = lookupDoc s c i) := by
  unfold mgrSetManyCommit getStats
  by_cases hov : isOverLimit (env s.envIdx) cfg = true
  · simp only [hov, if_true]
    constructor
    · intro h; simp at h
    · intro _ c i; rfl
  · simp only [Bool.not_eq_true] at hov
    simp only [hov, Bool.false_eq_true, if_false]
    split
    · constructor
      · intro h; simp at h
      · intro _ c i
        exact lookupDoc_rotate cfg { s with envIdx := s.envIdx + 1 } c i
    · rename_i cur hl
      rw [mgrRotate_catalog]
      by_cases hc : s.catalog.contains name = true
      · rw [dsSetMany_ok s.catalog cur.store name docs hc]
        refine ⟨?_, ?_⟩
        · intro _
          refine ⟨List.range' (dsEnsureState cur.store name).1.nextId docs.length,
            { store := alistSet (dsEnsureState cur.store name).2 name
                { map := writeSeq (dsEnsureState cur.store name).1.map
                    (dsEnsureState cur.store name).1.nextId docs
                  nextId := (dsEnsureState cur.store name).1.nextId + docs.length
                  size := (dsEnsureState cur.store name).1.size + docs.length }
              size := cur.size + (docs.length : Int) },
            rfl, List.length_range' _ _ _, ?_, ?_⟩
          · show (mapLastShard _ (mgrRotate cfg { s with envIdx := s.envIdx + 1 }).shards).getLast? = _
            rw [getLast_mapLastShard, hl]
            rfl
          · intro p hp
            have hlook := writeSeq_lookup_zip docs
              (dsEnsureState cur.store name).1.map (dsEnsureState cur.store name).1.nextId p hp
            show (dsGet (alistSet (dsEnsureState cur.store name).2 name
              { map := writeSeq (dsEnsureState cur.store name).1.map
                  (dsEnsureState cur.store name).1.nextId docs
                nextId := (dsEnsureState cur.store name).1.nextId + docs.length
                size := (dsEnsureState cur.store name).1.size + docs.length }) name p.1).data = some p
            unfold dsGet
            rw [alistGet_alistSet_self]
            show (match alistGet (writeSeq (dsEnsureState cur.store name).1.map
                (dsEnsureState cur.store name).1.nextId docs) p.1 with
              | none => ({ status := Status.ERROR, data := none } : Resp (DocId × Val))
              | some doc => { status := Status.OK, data := some (p.1, doc) }).data = some p
            rw [hlook]
        · intro h
          exact Status.noConfusion h
      · have hcf : s.catalog.contains name = false := by
          cases hcc : s.catalog.contains name
          · rfl
          · exact absurd hcc hc
        constructor
        · intro h
          unfold dsSetMany at h
          rw [hcf] at h
          simp at h
        · intro _ c i
          unfold dsSetMany
          rw [hcf]
          simp only [Bool.false_eq_true, if_false]
          show findDocIn ((mapLastShard
              (fun sh => { store := cur.store, size := sh.size + (docs.length : Int) })
              (mgrRotate cfg { s with envIdx := s.envIdx + 1 }).shards).map Shard.store) c i =
            findDocIn (s.shards.map Shard.store) c i
          rw [mapLastShard_map_store _ _ (fun sh hsh => by
            rw [hl] at hsh
            rw [Option.some_inj.mp hsh])]
          have h2 := lookupDoc_rotate cfg { s with envIdx := s.envIdx + 1 } c i
          unfold lookupDoc at h2
          exact h2


end ShinDB
namespace ShinDB

theorem mgrRotate_no_rotate (cfg : Config) (s : MgrState) (sh : Shard)
    (hlast : s.shards.getLast? = some sh)
    (hlt : sh.size < (cfg.capacity : Int)) :
    mgrRotate cfg s = s := by
  unfold mgrRotate
  split
  · rfl
  · rename_i cur heq
    rw [hlast] at heq
    injection heq with heq
    subst heq
    rw [if_neg (not_le.mpr hlt)]

def commitOutShard (name : CollectionName) (docs : List Val) : Shard :=
  { store := alistSet [(name, { map := [], nextId := 0, size := 0 })] name
      { map := writeSeq [] 0 docs, nextId := 0 + docs.length, size := 0 + docs.length },
    size := (0 : Int) + (docs.length : Int) }

def commitOutState (cat : List CollectionName) (lr : List (String × (Nat × Nat)))
    (ar : List Val) (mo : Bool) (ei ti : Nat) (name : CollectionName) (docs : List Val) : MgrState :=
  trackAccessBulk
    { shards := [commitOutShard name docs],
      catalog := cat, lru := lr, archive := ar ++ docs, monitoring := mo,
      envIdx := ei + 1, tick := ti }
    (((List.range' 0 docs.length).zip docs).map
      (fun p => (lruKey name p.1, estimateDataSize p.2)))

theorem commit_explicit (cfg : Config) (env : Env) (cat : List CollectionName)
    (lr : List (String × (Nat × Nat))) (ar : List Val) (mo : Bool) (ei ti : Nat)
    (name : CollectionName) (docs : List Val)
    (hover : isOverLimit (env ei) cfg = false)
    (hcap : 0 < cfg.capacity)
    (hc : cat.contains name = true) :
    mgrSetManyCommit cfg env
      { shards := [{ store := [], size := 0 }], catalog := cat, lru := lr,
        archive := ar, monitoring := mo, envIdx := ei, tick := ti } name docs =
      ({ status := .OK, data := some (List.range' 0 docs.length) },
       commitOutState cat lr ar mo ei ti name docs) := by
  unfold mgrSetManyCommit getStats
  simp only [hover, Bool.false_eq_true, if_false]
  rw [mgrRotate_no_rotate cfg { shards := [{ store := [], size := 0 }], catalog := cat, lru := lr, archive := ar, monitoring := mo, envIdx := ei + 1, tick := ti } { store := [], size := 0 } rfl (by show (0 : Int) < (cfg.capacity : Int); exact_mod_cast hcap)]
  simp only [List.getLast?_singleton]
  rw [dsSetMany_ok cat [] name docs hc]
  rfl

end ShinDB
namespace ShinDB

theorem chunkLoop_cons_ok (cfg : Config) (env : Env) (name : CollectionName)
    (c : List Val) (rest : List (List Val)) (s : MgrState) (acc ids : List DocId)
    (s2 : MgrState)
    (h : mgrSetManyCore cfg env s name c = ({ status := .OK, data := some ids }, s2)) :
    chunkLoop cfg env name (c :: rest) s acc = chunkLoop cfg env name rest s2 (acc ++ ids) := by
  simp only [chunkLoop, h]

theorem chunkLoop_cons_err (cfg : Config) (env : Env) (name : CollectionName)
    (c : List Val) (rest : List (List Val)) (s : MgrState) (acc : List DocId)
    (s2 : MgrState)
    (h : mgrSetManyCore cfg env s name c = ({ status := .ERROR, data := none }, s2)) :
    chunkLoop cfg env name (c :: rest) s acc = ({ status := .ERROR }, s2) := by
  simp only [chunkLoop, h]

theorem estBulk_replicate (n : Nat) (d : Val) :
    estimateDataSizeBulk (List.replicate n d) = n * estimateDataSize d := by
  unfold estimateDataSizeBulk
  rw [List.map_replicate, List.sum_replicate, smul_eq_mul]

theorem chunksOfFuel_nil (f n : Nat) : chunksOfFuel f n [] = [] := by
  cases f <;> simp [chunksOfFuel]

theorem chunksOfFuel_succ (f n : Nat) (x : Val) (t : List Val) :
    chunksOfFuel (f + 1) n (x :: t) = (x :: t).take n :: chunksOfFuel f n ((x :: t).drop n) := by
  simp [chunksOfFuel]

/-- The memory limits of the chunked-failure scenario: 1 GB RSS and heap
limits, the source shard capacity. -/
def cfgCk : Config := { maxRSSBytes := 1000000000, maxHeapBytes := 1000000000, capacity := 6000000 }

/-- Environment of the chunked-failure scenario: the process sits at the
RSS limit except for the two samples taken while the first chunk is
admitted and committed (indices 2 and 3). -/
def envCk : Env := fun i =>
  if i = 2 then { rss := 0, heapUsed := 0 }
  else if i = 3 then { rss := 0, heapUsed := 0 }
  else { rss := 1000000000, heapUsed := 0 }

/-- A 10001-document batch (one over the chunking threshold). -/
def docsCk : List Val := List.replicate 10001 (Val.vNum 1)

/-- The first chunk: the loop runs at chunk size 5000 here. -/
def ckC1 : List Val := List.replicate 5000 (Val.vNum 1)

/-- Manager state as the chunk loop starts. -/
def ckS1 : MgrState :=
  { shards := [{ store := [], size := 0 }], catalog := ["c"], lru := [],
    archive := [], monitoring := true, envIdx := 2, tick := 0 }

/-- State after the first chunk committed. -/
def ckS5 : MgrState := commitOutState ["c"] [] [] true 3 0 "c" ckC1

/-- Final state: the second chunk is refused and the loop aborts. -/
def ckFinal : MgrState := stopMonitoring { ckS5 with envIdx := ckS5.envIdx + 1 }

theorem ck_est : setManyEstimate docsCk = 900090 := by
  show setManyEstimate (List.replicate 10001 (Val.vNum 1)) = 900090
  unfold setManyEstimate
  rw [estBulk_replicate]
  simp only [List.length_replicate]
  decide

theorem ck_estC1 : setManyEstimate ckC1 = 450000 := by
  show setManyEstimate (List.replicate 5000 (Val.vNum 1)) = 450000
  unfold setManyEstimate
  rw [estBulk_replicate]
  simp only [List.length_replicate]
  decide

theorem ck_len : docsCk.length = 10001 := by
  show (List.replicate 10001 (Val.vNum 1)).length = 10001
  simp only [List.length_replicate]

theorem ck_chunks : chunksOfFuel docsCk.length 5000 docsCk = [ckC1, ckC1, [Val.vNum 1]] := by
  rw [ck_len]
  rw [show docsCk = Val.vNum 1 :: List.replicate 10000 (Val.vNum 1) from rfl]
  rw [show (10001 : Nat) = 10000 + 1 from rfl]
  rw [chunksOfFuel_succ]
  rw [show (Val.vNum 1 :: List.replicate 10000 (Val.vNum 1)) = List.replicate 10001 (Val.vNum 1) from rfl]
  rw [List.take_replicate, List.drop_replicate]
  rw [show min 5000 10001 = 5000 from rfl, show 10001 - 5000 = 5001 from rfl]
  rw [show List.replicate 5001 (Val.vNum 1) = Val.vNum 1 :: List.replicate 5000 (Val.vNum 1) from rfl]
  rw [show (10000 : Nat) = 9999 + 1 from rfl]
  rw [chunksOfFuel_succ]
  rw [show (Val.vNum 1 :: List.replicate 5000 (Val.vNum 1)) = List.replicate 5001 (Val.vNum 1) from rfl]
  rw [List.take_replicate, List.drop_replicate]
  rw [show min 5000 5001 = 5000 from rfl, show 5001 - 5000 = 1 from rfl]
  rw [show List.replicate 1 (Val.vNum 1) = Val.vNum 1 :: ([] : List Val) from rfl]
  rw [show (9999 : Nat) = 9998 + 1 from rfl]
  rw [chunksOfFuel_succ]
  rw [show (Val.vNum 1 :: ([] : List Val)).take 5000 = [Val.vNum 1] from rfl]
  rw [show (Val.vNum 1 :: ([] : List Val)).drop 5000 = [] from rfl]
  rw [chunksOfFuel_nil]
  rfl

theorem ck_core1 : mgrSetManyCore cfgCk envCk ckS1 "c" ckC1 =
    ({ status := .OK, data := some (List.range' 0 ckC1.length) }, ckS5) := by
  rw [mgrSetManyCore_eq, ck_estC1]
  rw [if_pos (by decide)]
  exact commit_explicit cfgCk envCk ["c"] [] [] true 3 0 "c" ckC1 (by decide) (by decide) (by decide)

theorem ck_core2 : mgrSetManyCore cfgCk envCk ckS5 "c" ckC1 =
    ({ status := .ERROR, data := none }, ckFinal) := by
  rw [mgrSetManyCore_eq, ck_estC1]
  rw [if_neg (by decide)]
  rfl

theorem ck_master : mgrSetMany cfgCk envCk (initState ["c"]) "c" docsCk =
    ({ status := .ERROR, data := none }, ckFinal) := by
  rw [mgrSetMany_eq, ck_est]
  rw [if_neg (by decide)]
  rw [ck_len]
  rw [if_pos (by decide)]
  show chunkLoop cfgCk envCk "c" (chunksOfFuel docsCk.length 5000 docsCk) ckS1 [] =
    ({ status := Status.ERROR, data := none }, ckFinal)
  rw [ck_chunks]
  rw [chunkLoop_cons_ok cfgCk envCk "c" ckC1 [ckC1, [Val.vNum 1]] ckS1 []
    (List.range' 0 ckC1.length) ckS5 ck_core1]
  rw [chunkLoop_cons_err cfgCk envCk "c" ckC1 [[Val.vNum 1]] ckS5
    ([] ++ List.range' 0 ckC1.length) ckFinal ck_core2]

end ShinDB
namespace ShinDB

theorem mgrRotate_archive (cfg : Config) (s : MgrState) :
    (mgrRotate cfg s).archive = s.archive := by
  unfold mgrRotate
  split
  · rfl
  · split
    · rfl
    · rfl

theorem mgrGet_archive (s : MgrState) (name : CollectionName) (id : DocId) :
    (mgrGet s name id).2.archive = s.archive := by
  unfold mgrGet
  split
  · rfl
  · split
    · rfl
    · rename_i sh hsh
      rcases hres : dsGet sh.store name id with ⟨st, d⟩
      cases st
      · cases d
        · rfl
        · rename_i p
          rcases p with ⟨a, b⟩
          rfl
      · cases d
        · rfl
        · rename_i p
          rcases p with ⟨a, b⟩
          rfl

theorem mgrUpdate_archive (s : MgrState) (name : CollectionName) (id : DocId) (doc : Val) :
    (mgrUpdate s name id doc).2.archive = s.archive := by
  unfold mgrUpdate
  split
  · rfl
  · split
    · rfl
    · rename_i sh hsh
      rcases h : dsUpdate sh.store name id doc with ⟨r, store'⟩
      rfl

theorem mgrDelete_archive (s : MgrState) (name : CollectionName) (id : DocId) :
    (mgrDelete s name id).2.archive = s.archive := by
  unfold mgrDelete
  split
  · rfl
  · split
    · rfl
    · rename_i sh hsh
      rcases h : dsDelete sh.store name id with ⟨⟨st, d⟩, store'⟩
      cases st
      · rfl
      · rfl

theorem mgrFind_archive (s : MgrState) (name : CollectionName) (w : WhereQuery) :
    (mgrFind s name w).2.archive = s.archive := by
  unfold mgrFind
  rcases h : mgrFindLoop s.catalog name w s.shards with ⟨res, shards'⟩
  rfl

theorem mgrGetManyLoop_archive (name : CollectionName) :
    ∀ (ids : List DocId) (s : MgrState),
      (mgrGetManyLoop name ids s).2.archive = s.archive := by
  intro ids
  induction ids with
  | nil => intro s; rfl
  | cons id rest ih =>
      intro s
      unfold mgrGetManyLoop
      rcases hg : mgrGet s name id with ⟨⟨st, d⟩, s1⟩
      have hga : s1.archive = s.archive := by
        have h := mgrGet_archive s name id
        rw [hg] at h
        exact h
      cases st
      · cases d
        · exact (ih s1).trans hga
        · rename_i p
          rcases p with ⟨a, b⟩
          show (mgrGetManyLoop name rest s1).2.archive = s.archive
          exact (ih s1).trans hga
      · cases d
        · exact (ih s1).trans hga
        · rename_i p
          rcases p with ⟨a, b⟩
          exact (ih s1).trans hga

theorem mgrGetMany_archive (s : MgrState) (name : CollectionName) (ids : List DocId) :
    (mgrGetMany s name ids).2.archive = s.archive := by
  unfold mgrGetMany
  rcases h : mgrGetManyLoop name ids s with ⟨res, s1⟩
  have h2 := mgrGetManyLoop_archive name ids s
  rw [h] at h2
  exact h2

theorem mgrUpdateManyLoop_archive (name : CollectionName) :
    ∀ (updates : List (DocId × Val)) (s : MgrState),
      (mgrUpdateManyLoop name updates s).2.archive = s.archive := by
  intro updates
  induction updates with
  | nil => intro s; rfl
  | cons u rest ih =>
      intro s
      obtain ⟨uid, udoc⟩ := u
      unfold mgrUpdateManyLoop
      rcases hu : mgrUpdate s name uid udoc with ⟨⟨st, d⟩, s1⟩
      have hua : s1.archive = s.archive := by
        have h := mgrUpdate_archive s name uid udoc
        rw [hu] at h
        exact h
      cases st
      · exact (ih s1).trans hua
      · exact hua

theorem mgrUpdateMany_archive (s : MgrState) (name : CollectionName)
    (updates : List (DocId × Val)) :
    (mgrUpdateMany s name updates).2.archive = s.archive := by
  unfold mgrUpdateMany
  rcases h : mgrUpdateManyLoop name updates s with ⟨st, s1⟩
  have h2 := mgrUpdateManyLoop_archive name updates s
  rw [h] at h2
  exact h2

theorem mgrDeleteManyLoop_archive (name : CollectionName) :
    ∀ (ids : List DocId) (s : MgrState),
      (mgrDeleteManyLoop name ids s).2.archive = s.archive := by
  intro ids
  induction ids with
  | nil => intro s; rfl
  | cons id rest ih =>
      intro s
      unfold mgrDeleteManyLoop
      split
      · exact ih s
      · split
        · exact ih s
        · rename_i oi i hi osh sh hsh
          rcases hd : dsDelete sh.store name id with ⟨⟨st, d⟩, store'⟩
          cases st
          · show (mgrDeleteManyLoop name rest
                { s with shards := s.shards.set i { store := store', size := sh.size - 1 } }).2.archive = s.archive
            exact ih _
          · exact ih _

theorem mgrDeleteMany_archive (s : MgrState) (name : CollectionName) (ids : List DocId) :
    (mgrDeleteMany s name ids).2.archive = s.archive := by
  unfold mgrDeleteMany
  rcases h : mgrDeleteManyLoop name ids s with ⟨del, s1⟩
  have h2 := mgrDeleteManyLoop_archive name ids s
  rw [h] at h2
  exact h2

end ShinDB
namespace ShinDB

theorem dsSet_ok (cat : List CollectionName) (ds : DSData) (name : CollectionName)
    (doc : Val) (hc : cat.contains name = true) :
    dsSet cat ds name doc =
      ({ status := .OK, data := some (dsEnsureState ds name).1.nextId },
       alistSet (dsEnsureState ds name).2 name
         { map := alistSet (dsEnsureState ds name).1.map (dsEnsureState ds name).1.nextId doc
           nextId := (dsEnsureState ds name).1.nextId + 1
           size := (dsEnsureState ds name).1.size + 1 },
       [doc]) := by
  unfold dsSet
  rw [if_pos hc]

theorem dsSet_err (cat : List CollectionName) (ds : DSData) (name : CollectionName)
    (doc : Val) (hc : cat.contains name = false) :
    dsSet cat ds name doc = ({ status := .ERROR }, ds, []) := by
  unfold dsSet
  rw [if_neg (by intro h; rw [hc] at h; exact Bool.noConfusion h)]

theorem dsSetMany_err (cat : List CollectionName) (ds : DSData) (name : CollectionName)
    (docs : List Val) (hc : cat.contains name = false) :
    dsSetMany cat ds name docs = ({ status := .ERROR }, ds, []) := by
  unfold dsSetMany
  rw [if_neg (by intro h; rw [hc] at h; exact Bool.noConfusion h)]

theorem mgrSet_eq (cfg : Config) (s : MgrState) (name : CollectionName) (doc : Val) :
    mgrSet cfg s name doc =
      (match (mgrRotate cfg s).shards.getLast? with
       | none => ({ status := .ERROR }, mgrRotate cfg s)
       | some cur =>
           match dsSet (mgrRotate cfg s).catalog cur.store name doc with
           | (r, store', appended) =>
               let s2 := { mgrRotate cfg s with
                 shards := mapLastShard (fun sh => { store := store', size := sh.size + 1 })
                   (mgrRotate cfg s).shards,
                 archive := (mgrRotate cfg s).archive ++ appended }
               match r with
               | { status := .OK, data := some id } =>
                   (r, trackAccess s2 (lruKey name id) (estimateDataSize doc))
               | _ => (r, s2)) := rfl

theorem mgrSet_archive (cfg : Config) (s : MgrState) (name : CollectionName) (doc : Val) :
    ((mgrSet cfg s name doc).1.status = Status.OK →
      (mgrSet cfg s name doc).2.archive = s.archive ++ [doc]) ∧
    ((mgrSet cfg s name doc).1.status = Status.ERROR →
      (mgrSet cfg s name doc).2.archive = s.archive) := by
  rw [mgrSet_eq]
  split
  · exact ⟨fun h => Status.noConfusion h, fun _ => mgrRotate_archive cfg s⟩
  · rename_i cur hlast
    by_cases hcat : (mgrRotate cfg s).catalog.contains name = true
    · rw [dsSet_ok _ _ _ _ hcat]
      constructor
      · intro _
        show (mgrRotate cfg s).archive ++ [doc] = s.archive ++ [doc]
        rw [mgrRotate_archive]
      · intro h
        exact Status.noConfusion h
    · have hcf : (mgrRotate cfg s).catalog.contains name = false := by
        cases hcc : (mgrRotate cfg s).catalog.contains name
        · rfl
        · exact absurd hcc hcat
      rw [dsSet_err _ _ _ _ hcf]
      constructor
      · intro h
        exact Status.noConfusion h
      · intro _
        show (mgrRotate cfg s).archive ++ [] = s.archive
        rw [List.append_nil, mgrRotate_archive]

theorem mgrSetManyCommit_archive (cfg : Config) (env : Env) (s : MgrState)
    (name : CollectionName) (docs : List Val) :
    ((mgrSetManyCommit cfg env s name docs).1.status = Status.OK →
      (mgrSetManyCommit cfg env s name docs).2.archive = s.archive ++ docs) ∧
    ((mgrSetManyCommit cfg env s name docs).1.status = Status.ERROR →
      (mgrSetManyCommit cfg env s name docs).2.archive = s.archive) := by
  unfold mgrSetManyCommit getStats
  by_cases hov : isOverLimit (env s.envIdx) cfg = true
  · simp only [hov, if_true]
    constructor
    · first
      | exact fun h => Status.noConfusion h
      | trivial
    · first
      | exact fun _ => rfl
      | trivial
  · simp only [Bool.not_eq_true] at hov
    simp only [hov, Bool.false_eq_true, if_false]
    split
    · constructor
      · first
        | exact fun h => Status.noConfusion h
        | trivial
      · first
        | exact fun _ => mgrRotate_archive cfg _
        | trivial
    · rename_i cur hlast
      by_cases hcat : (mgrRotate cfg { s with envIdx := s.envIdx + 1 }).catalog.contains name = true
      · rw [dsSetMany_ok _ _ _ _ hcat]
        constructor
        · intro _
          show (mgrRotate cfg { s with envIdx := s.envIdx + 1 }).archive ++ docs =
            s.archive ++ docs
          rw [mgrRotate_archive]
        · intro h
          exact Status.noConfusion h
      · have hcf : (mgrRotate cfg { s with envIdx := s.envIdx + 1 }).catalog.contains name = false := by
          cases hcc : (mgrRotate cfg { s with envIdx := s.envIdx + 1 }).catalog.contains name
          · rfl
          · exact absurd hcc hcat
        rw [dsSetMany_err _ _ _ _ hcf]
        constructor
        · intro h
          exact Status.noConfusion h
        · intro _
          show (mgrRotate cfg { s with envIdx := s.envIdx + 1 }).archive ++ [] = s.archive
          rw [List.append_nil, mgrRotate_archive]

theorem mgrSetMany_archive_nonchunked (cfg : Config) (env : Env) (s : MgrState)
    (name : CollectionName) (docs : List Val)
    (hnc : canAllocateNat (env s.envIdx).rss (env s.envIdx).heapUsed
        cfg.maxRSSBytes cfg.maxHeapBytes (setManyEstimate docs) = true ∨
      docs.length ≤ 10000) :
    ((mgrSetMany cfg env s name docs).1.status = Status.OK →
      (mgrSetMany cfg env s name docs).2.archive = s.archive ++ docs) ∧
    ((mgrSetMany cfg env s name docs).1.status = Status.ERROR →
      (mgrSetMany cfg env s name docs).2.archive = s.archive) := by
  rw [mgrSetMany_eq]
  split
  · exact mgrSetManyCommit_archive cfg env { s with envIdx := s.envIdx + 1 } name docs
  · rename_i hca
    split
    · rename_i hgt
      rcases hnc with hca2 | hlen
      · exact absurd hca2 hca
      · exact absurd hgt (by omega)
    · exact ⟨fun h => Status.noConfusion h, fun _ => rfl⟩

theorem mgrSetManyCommit_mono (cfg : Config) (env : Env) (s : MgrState)
    (name : CollectionName) (docs : List Val) :
    ∃ t, (mgrSetManyCommit cfg env s name docs).2.archive = s.archive ++ t := by
  cases hst : (mgrSetManyCommit cfg env s name docs).1.status with
  | OK => exact ⟨docs, (mgrSetManyCommit_archive cfg env s name docs).1 hst⟩
  | ERROR =>
      refine ⟨[], ?_⟩
      rw [List.append_nil]
      exact (mgrSetManyCommit_archive cfg env s name docs).2 hst

theorem mgrSetManyCore_mono (cfg : Config) (env : Env) (s : MgrState)
    (name : CollectionName) (docs : List Val) :
    ∃ t, (mgrSetManyCore cfg env s name docs).2.archive = s.archive ++ t := by
  rw [mgrSetManyCore_eq]
  split
  · exact mgrSetManyCommit_mono cfg env { s with envIdx := s.envIdx + 1 } name docs
  · exact ⟨[], by rw [List.append_nil]; rfl⟩

theorem chunkLoop_mono (cfg : Config) (env : Env) (name : CollectionName) :
    ∀ (chunks : List (List Val)) (s : MgrState) (acc : List DocId),
      ∃ t, (chunkLoop cfg env name chunks s acc).2.archive = s.archive ++ t := by
  intro chunks
  induction chunks with
  | nil => intro s acc; exact ⟨[], by rw [List.append_nil]; rfl⟩
  | cons c rest ih =>
      intro s acc
      unfold chunkLoop
      rcases hc : mgrSetManyCore cfg env s name c with ⟨⟨st, d⟩, s1⟩
      have h1 : ∃ t, s1.archive = s.archive ++ t := by
        have h := mgrSetManyCore_mono cfg env s name c
        rw [hc] at h
        exact h
      rcases h1 with ⟨t1, ht1⟩
      cases st
      · cases d
        · exact ⟨t1, ht1⟩
        · rename_i ids
          rcases ih s1 (acc ++ ids) with ⟨t2, ht2⟩
          refine ⟨t1 ++ t2, ?_⟩
          show (chunkLoop cfg env name rest s1 (acc ++ ids)).2.archive = s.archive ++ (t1 ++ t2)
          rw [ht2, ht1, List.append_assoc]
      · cases d
        · exact ⟨t1, ht1⟩
        · rename_i ids
          exact ⟨t1, ht1⟩

theorem mgrSetManyChunked_mono (cfg : Config) (env : Env) (s : MgrState)
    (name : CollectionName) (docs : List Val) :
    ∃ t, (mgrSetManyChunked cfg env s name docs).2.archive = s.archive ++ t := by
  unfold mgrSetManyChunked getStats
  exact chunkLoop_mono cfg env name _ _ []

theorem mgrSetMany_mono (cfg : Config) (env : Env) (s : MgrState)
    (name : CollectionName) (docs : List Val) :
    ∃ t, (mgrSetMany cfg env s name docs).2.archive = s.archive ++ t := by
  rw [mgrSetMany_eq]
  split
  · exact mgrSetManyCommit_mono cfg env { s with envIdx := s.envIdx + 1 } name docs
  · split
    · exact mgrSetManyChunked_mono cfg env { s with envIdx := s.envIdx + 1 } name docs
    · exact ⟨[], by rw [List.append_nil]; rfl⟩

theorem mgrSet_mono (cfg : Config) (s : MgrState) (name : CollectionName) (doc : Val) :
    ∃ t, (mgrSet cfg s name doc).2.archive = s.archive ++ t := by
  cases hst : (mgrSet cfg s name doc).1.status with
  | OK => exact ⟨[doc], (mgrSet_archive cfg s name doc).1 hst⟩
  | ERROR =>
      refine ⟨[], ?_⟩
      rw [List.append_nil]
      exact (mgrSet_archive cfg s name doc).2 hst

end ShinDB
namespace ShinDB

/-- One engine call of the public mutation/query surface, as dispatched
against a manager state. -/
inductive Op where
  | oGet (name : CollectionName) (id : DocId)
  | oUpdate (name : CollectionName) (id : DocId) (doc : Val)
  | oDelete (name : CollectionName) (id : DocId)
  | oGetMany (name : CollectionName) (ids : List DocId)
  | oUpdateMany (name : CollectionName) (updates : List (DocId × Val))
  | oDeleteMany (name : CollectionName) (ids : List DocId)
  | oFind (name : CollectionName) (w : WhereQuery)
  | oSet (name : CollectionName) (doc : Val)
  | oSetMany (name : CollectionName) (docs : List Val)

/-- The state after one engine call. -/
def applyOp (cfg : Config) (env : Env) (s : MgrState) : Op → MgrState
  | .oGet n i => (mgrGet s n i).2
  | .oUpdate n i d => (mgrUpdate s n i d).2
  | .oDelete n i => (mgrDelete s n i).2
  | .oGetMany n is => (mgrGetMany s n is).2
  | .oUpdateMany n us => (mgrUpdateMany s n us).2
  | .oDeleteMany n is => (mgrDeleteMany s n is).2
  | .oFind n w => (mgrFind s n w).2
  | .oSet n d => (mgrSet cfg s n d).2
  | .oSetMany n ds => (mgrSetMany cfg env s n ds).2

/-- The state after a program of engine calls. -/
def applyOps (cfg : Config) (env : Env) : List Op → MgrState → MgrState
  | [], s => s
  | op :: rest, s => applyOps cfg env rest (applyOp cfg env s op)

theorem applyOp_mono (cfg : Config) (env : Env) (s : MgrState) (op : Op) :
    ∃ t, (applyOp cfg env s op).archive = s.archive ++ t := by
  cases op with
  | oGet n i => exact ⟨[], by rw [List.append_nil]; exact mgrGet_archive s n i⟩
  | oUpdate n i d => exact ⟨[], by rw [List.append_nil]; exact mgrUpdate_archive s n i d⟩
  | oDelete n i => exact ⟨[], by rw [List.append_nil]; exact mgrDelete_archive s n i⟩
  | oGetMany n is => exact ⟨[], by rw [List.append_nil]; exact mgrGetMany_archive s n is⟩
  | oUpdateMany n us => exact ⟨[], by rw [List.append_nil]; exact mgrUpdateMany_archive s n us⟩
  | oDeleteMany n is => exact ⟨[], by rw [List.append_nil]; exact mgrDeleteMany_archive s n is⟩
  | oFind n w => exact ⟨[], by rw [List.append_nil]; exact mgrFind_archive s n w⟩
  | oSet n d => exact mgrSet_mono cfg s n d
  | oSetMany n ds => exact mgrSetMany_mono cfg env s n ds

theorem applyOps_mono (cfg : Config) (env : Env) :
    ∀ (ops : List Op) (s : MgrState),
      ∃ t, (applyOps cfg env ops s).archive = s.archive ++ t := by
  intro ops
  induction ops with
  | nil =>
      intro s
      refine ⟨[], ?_⟩
      rw [List.append_nil]
      rfl
  | cons op rest ih =>
      intro s
      rcases applyOp_mono cfg env s op with ⟨t1, ht1⟩
      rcases ih (applyOp cfg env s op) with ⟨t2, ht2⟩
      refine ⟨t1 ++ t2, ?_⟩
      show (applyOps cfg env rest (applyOp cfg env s op)).archive = s.archive ++ (t1 ++ t2)
      rw [ht2, ht1, List.append_assoc]

end ShinDB
namespace ShinDB

theorem dsGet_found (data : DSData) (name : CollectionName) (id : DocId)
    (m : List (DocId × Val)) (nid sz : Nat) (d : Val)
    (h1 : alistGet data name = some ⟨m, nid, sz⟩) (h2 : alistGet m id = some d) :
    (dsGet data name id).data = some (id, d) := by
  unfold dsGet
  rw [h1]
  show (match alistGet m id with
    | none => ({ status := Status.ERROR, data := none } : Resp (DocId × Val))
    | some doc => { status := Status.OK, data := some (id, doc) }).data = some (id, d)
  rw [h2]

theorem findDocIn_cons_found (ds : DSData) (rest : List DSData) (name : CollectionName)
    (id : DocId) (p : DocId × Val) (h : (dsGet ds name id).data = some p) :
    findDocIn (ds :: rest) name id = some p.2 := by
  unfold findDocIn
  rw [h]

/-- C5 — the claimed `setMany` atomicity fails in the code.  A
10001-document `setMany` is refused at admission, falls back to chunked
ingest, commits its first 5000-document chunk, and is then refused on the
second chunk: the call returns `ERROR` with no ids, yet document 0 of the
failed call is stored and retrievable — the spec's "`ERROR` and no docs
stored" does not hold on the chunked path.  (A second violation, the
`NaN`-seeded allocator collapsing a whole batch onto one id after a
rotation with an untouched collection, lives outside this `Nat`-id model
and is reported from the source directly — see `mgrRotate`.) -/
theorem setMany_chunked_partial_commit :
    (mgrSetMany cfgCk envCk (initState ["c"]) "c" docsCk).1.status = Status.ERROR ∧
    (mgrSetMany cfgCk envCk (initState ["c"]) "c" docsCk).1.data = none ∧
    lookupDoc (mgrSetMany cfgCk envCk (initState ["c"]) "c" docsCk).2 "c" 0 =
      some (Val.vNum 1) := by
  rw [ck_master]
  refine ⟨rfl, rfl, ?_⟩
  have hlen1 : ckC1.length = 5000 := by
    show (List.replicate 5000 (Val.vNum 1)).length = 5000
    simp only [List.length_replicate]
  have hz : ((0 : DocId), Val.vNum 1) ∈ (List.range' 0 ckC1.length).zip ckC1 := by
    rw [hlen1]
    rw [show (List.range' 0 5000).zip ckC1 =
      ((0 : DocId), Val.vNum 1) :: (List.range' 1 4999).zip (List.replicate 4999 (Val.vNum 1))
      from rfl]
    exact List.mem_cons_self _ _
  have hlook := writeSeq_lookup_zip ckC1 [] 0 (0, Val.vNum 1) hz
  have hlook2 : alistGet (writeSeq [] 0 ckC1) 0 = some (Val.vNum 1) := hlook
  have h1 : alistGet (commitOutShard "c" ckC1).store "c" =
      some ⟨writeSeq [] 0 ckC1, 0 + ckC1.length, 0 + ckC1.length⟩ := by
    show alistGet (alistSet [("c", (⟨[], 0, 0⟩ : CollectionState))] "c"
        (⟨writeSeq [] 0 ckC1, 0 + ckC1.length, 0 + ckC1.length⟩ : CollectionState)) "c" =
      some ⟨writeSeq [] 0 ckC1, 0 + ckC1.length, 0 + ckC1.length⟩
    exact alistGet_alistSet_self _ _ _
  have hget : (dsGet (commitOutShard "c" ckC1).store "c" 0).data =
      some ((0 : DocId), Val.vNum 1) := dsGet_found _ _ _ _ _ _ _ h1 hlook2
  show findDocIn [(commitOutShard "c" ckC1).store] "c" 0 = some (Val.vNum 1)
  exact findDocIn_cons_found _ [] _ _ _ hget



end ShinDB
namespace ShinDB

/-- C6 — counterexample.  In the chunked scenario of `ck_master` the
`setMany` call returns `ERROR`, yet the append-only log holds the 5000
documents of the committed first chunk: the log records per-chunk
commits, not successful calls, so "the log contains exactly the payloads
of the successful `set`/`setMany` calls" fails for call granularity. -/
theorem archive_keeps_failed_setMany_chunks :
    (mgrSetMany cfgCk envCk (initState ["c"]) "c" docsCk).1.status = Status.ERROR ∧
    (mgrSetMany cfgCk envCk (initState ["c"]) "c" docsCk).2.archive =
      List.replicate 5000 (Val.vNum 1) := by
  rw [ck_master]
  exact ⟨rfl, rfl⟩


end ShinDB
namespace ShinDB

theorem mgrSetManyCore_archive (cfg : Config) (env : Env) (s : MgrState)
    (name : CollectionName) (docs : List Val) :
    ((mgrSetManyCore cfg env s name docs).1.status = Status.OK →
      (mgrSetManyCore cfg env s name docs).2.archive = s.archive ++ docs) ∧
    ((mgrSetManyCore cfg env s name docs).1.status = Status.ERROR →
      (mgrSetManyCore cfg env s name docs).2.archive = s.archive) := by
  rw [mgrSetManyCore_eq]
  split
  · exact mgrSetManyCommit_archive cfg env { s with envIdx := s.envIdx + 1 } name docs
  · exact ⟨fun h => Status.noConfusion h, fun _ => rfl⟩

theorem mgrSetManyCore_ok_data (cfg : Config) (env : Env) (s : MgrState)
    (name : CollectionName) (docs : List Val)
    (h : (mgrSetManyCore cfg env s name docs).1.status = Status.OK) :
    ∃ ids, (mgrSetManyCore cfg env s name docs).1.data = some ids := by
  by_cases hca : canAllocateNat (env s.envIdx).rss (env s.envIdx).heapUsed
      cfg.maxRSSBytes cfg.maxHeapBytes (setManyEstimate docs) = true
  · rw [mgrSetManyCore_eq, if_pos hca] at h ⊢
    obtain ⟨ids, sh, hdata, -, -, -⟩ :=
      (mgrSetManyCommit_spec cfg env { s with envIdx := s.envIdx + 1 } name docs).1 h
    exact ⟨ids, hdata⟩
  · rw [mgrSetManyCore_eq, if_neg hca] at h
    exact Status.noConfusion h

/-- The documents of the chunks that `chunkLoop` commits before it stops
(all of them when every chunk is admitted), in commit order. -/
def committedDocs (cfg : Config) (env : Env) (name : CollectionName) :
    List (List Val) → MgrState → List Val
  | [], _ => []
  | c :: rest, s =>
      match mgrSetManyCore cfg env s name c with
      | ({ status := .OK, data := some _ }, s2) => c ++ committedDocs cfg env name rest s2
      | _ => []

theorem committedDocs_cons_ok (cfg : Config) (env : Env) (name : CollectionName)
    (c : List Val) (rest : List (List Val)) (s : MgrState) (ids : List DocId)
    (s2 : MgrState)
    (h : mgrSetManyCore cfg env s name c = ({ status := .OK, data := some ids }, s2)) :
    committedDocs cfg env name (c :: rest) s = c ++ committedDocs cfg env name rest s2 := by
  simp only [committedDocs, h]

theorem chunkLoop_archive (cfg : Config) (env : Env) (name : CollectionName) :
    ∀ (chunks : List (List Val)) (s : MgrState) (acc : List DocId),
      (chunkLoop cfg env name chunks s acc).2.archive =
        s.archive ++ committedDocs cfg env name chunks s := by
  intro chunks
  induction chunks with
  | nil =>
      intro s acc
      show s.archive = s.archive ++ committedDocs cfg env name [] s
      rw [show committedDocs cfg env name [] s = [] from rfl, List.append_nil]
  | cons c rest ih =>
      intro s acc
      rcases hc : mgrSetManyCore cfg env s name c with ⟨⟨st, d⟩, s1⟩
      have harch := mgrSetManyCore_archive cfg env s name c
      rw [hc] at harch
      cases st
      · cases d
        · have hok : (mgrSetManyCore cfg env s name c).1.status = Status.OK := by rw [hc]
          obtain ⟨ids, hdata⟩ := mgrSetManyCore_ok_data cfg env s name c hok
          rw [hc] at hdata
          exact absurd hdata (by simp)
        · rename_i ids
          rw [chunkLoop_cons_ok cfg env name c rest s acc ids s1 hc]
          rw [committedDocs_cons_ok cfg env name c rest s ids s1 hc]
          rw [ih s1 (acc ++ ids)]
          have hs1 : s1.archive = s.archive ++ c := harch.1 rfl
          rw [hs1, List.append_assoc]
      · have herr : s1.archive = s.archive := harch.2 rfl
        cases d
        · rw [chunkLoop_cons_err cfg env name c rest s acc s1 hc]
          simp only [committedDocs, hc]
          rw [List.append_nil]
          exact herr
        · rename_i ids
          simp only [chunkLoop, hc]
          simp only [committedDocs, hc]
          rw [List.append_nil]
          exact herr

/-- The chunk list and post-sample state that `setManyChunked` hands to
its chunk loop (the chunk-size computation of `part_015:377-453`). -/
def chunkPlan (cfg : Config) (env : Env) (s : MgrState) (docs : List Val) :
    List (List Val) × MgrState :=
  let (snap, s) := getStats env s
  let availableMemory : Int := (cfg.maxRSSBytes : Int) - snap.rss
  let sampleSize := estimateDataSize (docs.headD (.vUndef))
  let safeAvailable : Nat := (max availableMemory (200 * 1024 * 1024)).toNat
  let maxChunkSize : Nat :=
    if sampleSize = 0 then 50000 else safeAvailable * 4 / (5 * sampleSize)
  let chunkSize := max (min maxChunkSize 50000) 1000
  let finalChunkSize := if chunkSize < 1000 then 1000 else chunkSize
  let finalChunkSize :=
    if availableMemory < 100 * 1024 * 1024 then min finalChunkSize 5000 else finalChunkSize
  (chunksOfFuel docs.length finalChunkSize docs, s)

theorem mgrSetManyChunked_eq (cfg : Config) (env : Env) (s : MgrState)
    (name : CollectionName) (docs : List Val) :
    mgrSetManyChunked cfg env s name docs =
      chunkLoop cfg env name (chunkPlan cfg env s docs).1 (chunkPlan cfg env s docs).2 [] := rfl

theorem mgrSetManyChunked_archive (cfg : Config) (env : Env) (s : MgrState)
    (name : CollectionName) (docs : List Val) :
    (mgrSetManyChunked cfg env s name docs).2.archive =
      s.archive ++ committedDocs cfg env name
        (chunkPlan cfg env s docs).1 (chunkPlan cfg env s docs).2 := by
  rw [mgrSetManyChunked_eq, chunkLoop_archive]
  rw [show (chunkPlan cfg env s docs).2.archive = s.archive from rfl]

theorem mgrSetMany_archive_chunked (cfg : Config) (env : Env) (s : MgrState)
    (name : CollectionName) (docs : List Val)
    (hca : canAllocateNat (env s.envIdx).rss (env s.envIdx).heapUsed
        cfg.maxRSSBytes cfg.maxHeapBytes (setManyEstimate docs) = false)
    (hlen : docs.length > 10000) :
    (mgrSetMany cfg env s name docs).2.archive =
      s.archive ++ committedDocs cfg env name
        (chunkPlan cfg env { s with envIdx := s.envIdx + 1 } docs).1
        (chunkPlan cfg env { s with envIdx := s.envIdx + 1 } docs).2 := by
  rw [mgrSetMany_eq, if_neg (by rw [hca]; exact Bool.false_ne_true), if_pos hlen]
  exact mgrSetManyChunked_archive cfg env { s with envIdx := s.envIdx + 1 } name docs

/-- What one engine call appends to the log: nothing for reads, updates,
deletes and finds; the document of a successful `set`; the batch of a
successful non-chunked `setMany`; the committed chunks of a chunked
`setMany`. -/
def opLog (cfg : Config) (env : Env) (s : MgrState) : Op → List Val
  | .oSet n d =>
      match (mgrSet cfg s n d).1.status with
      | .OK => [d]
      | .ERROR => []
  | .oSetMany n ds =>
      if canAllocateNat (env s.envIdx).rss (env s.envIdx).heapUsed
          cfg.maxRSSBytes cfg.maxHeapBytes (setManyEstimate ds) = true then
        match (mgrSetMany cfg env s n ds).1.status with
        | .OK => ds
        | .ERROR => []
      else if ds.length > 10000 then
        committedDocs cfg env n
          (chunkPlan cfg env { s with envIdx := s.envIdx + 1 } ds).1
          (chunkPlan cfg env { s with envIdx := s.envIdx + 1 } ds).2
      else []
  | _ => []

theorem applyOp_log (cfg : Config) (env : Env) (s : MgrState) (op : Op) :
    (applyOp cfg env s op).archive = s.archive ++ opLog cfg env s op := by
  cases op with
  | oGet n i =>
      rw [show opLog cfg env s (.oGet n i) = [] from rfl, List.append_nil]
      exact mgrGet_archive s n i
  | oUpdate n i d =>
      rw [show opLog cfg env s (.oUpdate n i d) = [] from rfl, List.append_nil]
      exact mgrUpdate_archive s n i d
  | oDelete n i =>
      rw [show opLog cfg env s (.oDelete n i) = [] from rfl, List.append_nil]
      exact mgrDelete_archive s n i
  | oGetMany n l =>
      rw [show opLog cfg env s (.oGetMany n l) = [] from rfl, List.append_nil]
      exact mgrGetMany_archive s n l
  | oUpdateMany n l =>
      rw [show opLog cfg env s (.oUpdateMany n l) = [] from rfl, List.append_nil]
      exact mgrUpdateMany_archive s n l
  | oDeleteMany n l =>
      rw [show opLog cfg env s (.oDeleteMany n l) = [] from rfl, List.append_nil]
      exact mgrDeleteMany_archive s n l
  | oFind n w =>
      rw [show opLog cfg env s (.oFind n w) = [] from rfl, List.append_nil]
      exact mgrFind_archive s n w
  | oSet n d =>
      show (mgrSet cfg s n d).2.archive = s.archive ++ opLog cfg env s (.oSet n d)
      rw [show opLog cfg env s (.oSet n d) =
        (match (mgrSet cfg s n d).1.status with
         | .OK => [d]
         | .ERROR => []) from rfl]
      cases hst : (mgrSet cfg s n d).1.status with
      | OK =>
          exact (mgrSet_archive cfg s n d).1 hst
      | ERROR =>
          rw [show (match Status.ERROR with
            | Status.OK => [d]
            | Status.ERROR => ([] : List Val)) = [] from rfl, List.append_nil]
          exact (mgrSet_archive cfg s n d).2 hst
  | oSetMany n ds =>
      show (mgrSetMany cfg env s n ds).2.archive = s.archive ++ opLog cfg env s (.oSetMany n ds)
      rw [show opLog cfg env s (.oSetMany n ds) =
        (if canAllocateNat (env s.envIdx).rss (env s.envIdx).heapUsed
            cfg.maxRSSBytes cfg.maxHeapBytes (setManyEstimate ds) = true then
          match (mgrSetMany cfg env s n ds).1.status with
          | .OK => ds
          | .ERROR => []
        else if ds.length > 10000 then
          committedDocs cfg env n
            (chunkPlan cfg env { s with envIdx := s.envIdx + 1 } ds).1
            (chunkPlan cfg env { s with envIdx := s.envIdx + 1 } ds).2
        else []) from rfl]
      by_cases hca : canAllocateNat (env s.envIdx).rss (env s.envIdx).heapUsed
          cfg.maxRSSBytes cfg.maxHeapBytes (setManyEstimate ds) = true
      · rw [if_pos hca]
        cases hst : (mgrSetMany cfg env s n ds).1.status with
        | OK =>
            exact (mgrSetMany_archive_nonchunked cfg env s n ds (Or.inl hca)).1 hst
        | ERROR =>
            rw [show (match Status.ERROR with
              | Status.OK => ds
              | Status.ERROR => ([] : List Val)) = [] from rfl, List.append_nil]
            exact (mgrSetMany_archive_nonchunked cfg env s n ds (Or.inl hca)).2 hst
      · rw [if_neg hca]
        by_cases hlen : ds.length > 10000
        · rw [if_pos hlen]
          refine mgrSetMany_archive_chunked cfg env s n ds ?_ hlen
          cases hcc : canAllocateNat (env s.envIdx).rss (env s.envIdx).heapUsed
              cfg.maxRSSBytes cfg.maxHeapBytes (setManyEstimate ds)
          · rfl
          · exact absurd hcc hca
        · rw [if_neg hlen, List.append_nil]
          have hcall : mgrSetMany cfg env s n ds =
              ({ status := .ERROR }, stopMonitoring { s with envIdx := s.envIdx + 1 }) := by
            rw [mgrSetMany_eq, if_neg hca, if_neg hlen]
          rw [hcall]
          rfl

/-- The concatenation of the per-call log appends along a program, in
call order. -/
def traceLog (cfg : Config) (env : Env) : List Op → MgrState → List Val
  | [], _ => []
  | op :: rest, s => opLog cfg env s op ++ traceLog cfg env rest (applyOp cfg env s op)

theorem applyOps_log (cfg : Config) (env : Env) :
    ∀ (ops : List Op) (s : MgrState),
      (applyOps cfg env ops s).archive = s.archive ++ traceLog cfg env ops s := by
  intro ops
  induction ops with
  | nil =>
      intro s
      show s.archive = s.archive ++ traceLog cfg env [] s
      rw [show traceLog cfg env [] s = [] from rfl, List.append_nil]
  | cons op rest ih =>
      intro s
      show (applyOps cfg env rest (applyOp cfg env s op)).archive =
        s.archive ++ traceLog cfg env (op :: rest) s
      rw [ih (applyOp cfg env s op), applyOp_log]
      rw [show traceLog cfg env (op :: rest) s =
        opLog cfg env s op ++ traceLog cfg env rest (applyOp cfg env s op) from rfl]
      rw [List.append_assoc]

end ShinDB
namespace ShinDB

/-- C6 (amended) — the append-only log contains exactly the payloads of
the successful commits, in commit order, where the unit of commit is a
single `set`, a non-chunked `setMany` batch, or one chunk of a chunked
`setMany`: reads, updates, deletes, bulk updates/deletes and finds never
touch the log; a successful `set` appends its document and a failed one
appends nothing; a `setMany` off the chunked path (admission granted, or
at most 10000 documents) appends its whole batch on `OK` and nothing on
`ERROR`; a `setMany` on the chunked path (admission refused and more than
10000 documents) appends exactly the concatenation of its committed
chunks, even when the call as a whole fails; and over any program of
engine calls the log is the initial log followed by exactly these per-call
appends, in call order. -/
theorem archive_is_commit_log (cfg : Config) (env : Env) :
    (∀ s name id, (mgrGet s name id).2.archive = s.archive) ∧
    (∀ s name id doc, (mgrUpdate s name id doc).2.archive = s.archive) ∧
    (∀ s name id, (mgrDelete s name id).2.archive = s.archive) ∧
    (∀ s name ids, (mgrGetMany s name ids).2.archive = s.archive) ∧
    (∀ s name us, (mgrUpdateMany s name us).2.archive = s.archive) ∧
    (∀ s name ids, (mgrDeleteMany s name ids).2.archive = s.archive) ∧
    (∀ s name w, (mgrFind s name w).2.archive = s.archive) ∧
    (∀ s name doc,
      ((mgrSet cfg s name doc).1.status = Status.OK →
        (mgrSet cfg s name doc).2.archive = s.archive ++ [doc]) ∧
      ((mgrSet cfg s name doc).1.status = Status.ERROR →
        (mgrSet cfg s name doc).2.archive = s.archive)) ∧
    (∀ s name docs,
      (canAllocateNat (env s.envIdx).rss (env s.envIdx).heapUsed
          cfg.maxRSSBytes cfg.maxHeapBytes (setManyEstimate docs) = true ∨
        docs.length ≤ 10000) →
      (((mgrSetMany cfg env s name docs).1.status = Status.OK →
        (mgrSetMany cfg env s name docs).2.archive = s.archive ++ docs) ∧
      ((mgrSetMany cfg env s name docs).1.status = Status.ERROR →
        (mgrSetMany cfg env s name docs).2.archive = s.archive))) ∧
    (∀ s name docs,
      canAllocateNat (env s.envIdx).rss (env s.envIdx).heapUsed
          cfg.maxRSSBytes cfg.maxHeapBytes (setManyEstimate docs) = false →
      docs.length > 10000 →
      (mgrSetMany cfg env s name docs).2.archive =
        s.archive ++ committedDocs cfg env name
          (chunkPlan cfg env { s with envIdx := s.envIdx + 1 } docs).1
          (chunkPlan cfg env { s with envIdx := s.envIdx + 1 } docs).2) ∧
    (∀ op s, (applyOp cfg env s op).archive = s.archive ++ opLog cfg env s op) ∧
    (∀ ops s, (applyOps cfg env ops s).archive = s.archive ++ traceLog cfg env ops s) :=
  ⟨mgrGet_archive, mgrUpdate_archive, mgrDelete_archive, mgrGetMany_archive,
    mgrUpdateMany_archive, mgrDeleteMany_archive, mgrFind_archive,
    fun s name doc => mgrSet_archive cfg s name doc,
    fun s name docs hnc => mgrSetMany_archive_nonchunked cfg env s name docs hnc,
    fun s name docs hca hlen => mgrSetMany_archive_chunked cfg env s name docs hca hlen,
    fun op s => applyOp_log cfg env s op,
    applyOps_log cfg env⟩

/-- Witness for `archive_is_commit_log`: a single `set` and a one-document
`setMany` on a fresh engine each append their payload, and the refused
10001-document chunked call appends exactly its committed chunks. -/
theorem archive_is_commit_log_witness :
    ((mgrSet capTwo (initState ["c"]) "c" (Val.vNum 5)).2.archive =
      (initState ["c"]).archive ++ [Val.vNum 5]) ∧
    ((mgrSetMany capTwo envZero (initState ["c"]) "c" [Val.vNum 6]).2.archive =
      (initState ["c"]).archive ++ [Val.vNum 6]) ∧
    ((mgrSetMany cfgCk envCk (initState ["c"]) "c" docsCk).2.archive =
      (initState ["c"]).archive ++ committedDocs cfgCk envCk "c"
        (chunkPlan cfgCk envCk { initState ["c"] with envIdx := (initState ["c"]).envIdx + 1 } docsCk).1
        (chunkPlan cfgCk envCk { initState ["c"] with envIdx := (initState ["c"]).envIdx + 1 } docsCk).2) := by
  refine ⟨?_, ?_, ?_⟩
  · exact ((archive_is_commit_log capTwo envZero).2.2.2.2.2.2.2.1 (initState ["c"]) "c"
      (Val.vNum 5)).1 (by decide)
  · exact (((archive_is_commit_log capTwo envZero).2.2.2.2.2.2.2.2.1 (initState ["c"]) "c"
      [Val.vNum 6]) (Or.inr (by decide))).1 (by decide)
  · exact (archive_is_commit_log cfgCk envCk).2.2.2.2.2.2.2.2.2.1 (initState ["c"]) "c" docsCk
      (by rw [ck_est]; decide) (by rw [ck_len]; decide)

end ShinDB
